import Mathlib

/-!
Verification of `src/features/modals/NodeModal/index.tsx` (jsoncrack.com fragment).

The file embeds, in Lean, the three pure helpers of the component
(`normalizeNodeData`, `jsonPathToString`, `updateJsonAtPath`) together with the
JavaScript `JSON.parse` / `JSON.stringify(·, null, 2)` primitives they rely on,
and a state-transition model of the component's `handleSave`, its delayed
reselection callback, and its edit-mode `useEffect`.

Modelling conventions:
- JSON numbers are modelled as integers (`Int`).  All numeric literals occurring
  in the component's documents of interest are integers; fractional or exponent
  literals are outside the model (the modelled parser rejects them).
- JavaScript objects are modelled as ordered association lists; key insertion
  order is preserved and assigning an existing key keeps its position, exactly
  as JS insertion-order semantics for non-index string keys.  (The JS rule that
  integer-like object keys are enumerated first is not modelled; no claim
  involves integer-like object keys.)
- Sparse-array holes created by out-of-bounds index assignment are modelled as
  `null` elements, which is observationally equal under `JSON.stringify`.
- The prototype chain is ignored: `key in current` is own-property membership,
  which is exact for JSON-derived data.
- Exceptions (strict-mode `TypeError` on property access/assignment through a
  primitive, invalid array-length assignment) are modelled with `Except`.
-/

/-- The JavaScript JSON value domain (numbers restricted to integers). -/
inductive JValue where
  | null : JValue
  | bool (b : Bool) : JValue
  | num (n : Int) : JValue
  | str (s : String) : JValue
  | arr (elems : List JValue) : JValue
  | obj (fields : List (String × JValue)) : JValue
  deriving Repr

/-- Fuelled decimal rendering (recursion on digits; `natChars` supplies
sufficient fuel).  Fuel keeps every definition in the file reducible by the
kernel, so concrete instances evaluate with `rfl` / `decide`. -/
def natCharsF : Nat → Nat → List Char
  | 0, _ => []
  | fuel + 1, n =>
    if n < 10 then [Nat.digitChar n]
    else natCharsF fuel (n / 10) ++ [Nat.digitChar (n % 10)]

/-- Decimal digit characters of a natural number, most significant first. -/
def natChars (n : Nat) : List Char :=
  natCharsF (n + 1) n

mutual

/-- Executable structural size of a JSON value, used as recursion fuel. -/
def sizeJ : JValue → Nat
  | .null => 1
  | .bool _ => 1
  | .num _ => 1
  | .str _ => 1
  | .arr xs => 1 + sizeJList xs
  | .obj fs => 1 + sizeJFields fs

/-- Executable structural size of a list of JSON values. -/
def sizeJList : List JValue → Nat
  | [] => 1
  | x :: xs => 1 + sizeJ x + sizeJList xs

/-- Executable structural size of an object's field list. -/
def sizeJFields : List (String × JValue) → Nat
  | [] => 1
  | (_, v) :: fs => 1 + sizeJ v + sizeJFields fs

end

/-- Decimal rendering of an integer, as JavaScript `String(n)` for integers. -/
def intChars (n : Int) : List Char :=
  if n < 0 then '-' :: natChars n.natAbs else natChars n.natAbs

/-- JavaScript decimal rendering of an integer as a `String`. -/
def intRepr (n : Int) : String :=
  String.mk (intChars n)

/-- Decimal rendering of a natural number (used for JS number-to-string key
coercion of array indices and path segments). -/
def natRepr (n : Nat) : String :=
  String.mk (natChars n)

/-- Hex digit character (lower case), as produced by `JSON.stringify` in
`\u00XX` escapes. -/
def hexDigitChar (n : Nat) : Char :=
  Nat.digitChar n

/-- `JSON.stringify` escaping of a single string character. -/
def escapeChar (c : Char) : List Char :=
  if c = '"' then ['\\', '"']
  else if c = '\\' then ['\\', '\\']
  else if c = '\x08' then ['\\', 'b']
  else if c = '\x0c' then ['\\', 'f']
  else if c = '\n' then ['\\', 'n']
  else if c = '\r' then ['\\', 'r']
  else if c = '\t' then ['\\', 't']
  else if c.toNat < 32 then
    '\\' :: 'u' :: '0' :: '0' :: hexDigitChar (c.toNat / 16) :: [hexDigitChar (c.toNat % 16)]
  else [c]

/-- `JSON.stringify` rendering of a string literal (characters, no quotes). -/
def escapeString (s : String) : List Char :=
  s.data.flatMap escapeChar

/-- Quoted `JSON.stringify` rendering of a string. -/
def quoteString (s : String) : List Char :=
  '"' :: escapeString s ++ ['"']

/-- `n` spaces, the indentation prefix used by `JSON.stringify(·, null, 2)`. -/
def spaces (n : Nat) : List Char :=
  List.replicate n ' '

mutual

/-- Fuelled `JSON.stringify(v, null, 2)` at indentation depth `ind`
(characters).  Sufficient fuel is any bound above `sizeOf`; the wrappers
below supply it and the congruence lemmas show the result is then
fuel-independent. -/
def stringifyAuxF : Nat → Nat → JValue → List Char
  | 0, _, _ => []
  | fuel + 1, ind, v =>
    match v with
    | .null => "null".data
    | .bool true => "true".data
    | .bool false => "false".data
    | .num n => intChars n
    | .str s => quoteString s
    | .arr [] => ['[', ']']
    | .arr (x :: xs) =>
        '[' :: '\n' :: stringifyItemsF fuel (ind + 2) x xs ++ '\n' :: spaces ind ++ [']']
    | .obj [] => ['\x7b', '\x7d']
    | .obj ((k, v2) :: fs) =>
        '\x7b' :: '\n' :: stringifyFieldsF fuel (ind + 2) k v2 fs ++ '\n' :: spaces ind ++ ['\x7d']

/-- Fuelled comma-and-newline separated array items, each on its own indented
line. -/
def stringifyItemsF : Nat → Nat → JValue → List JValue → List Char
  | 0, _, _, _ => []
  | fuel + 1, ind, x, [] => spaces ind ++ stringifyAuxF fuel ind x
  | fuel + 1, ind, x, y :: ys =>
      spaces ind ++ stringifyAuxF fuel ind x ++ ',' :: '\n' :: stringifyItemsF fuel ind y ys

/-- Fuelled comma-and-newline separated object entries, each `"key": value`
on its own indented line. -/
def stringifyFieldsF : Nat → Nat → String → JValue → List (String × JValue) → List Char
  | 0, _, _, _, _ => []
  | fuel + 1, ind, k, v, [] => spaces ind ++ quoteString k ++ ':' :: ' ' :: stringifyAuxF fuel ind v
  | fuel + 1, ind, k, v, (k2, v2) :: gs =>
      spaces ind ++ quoteString k ++ ':' :: ' ' :: stringifyAuxF fuel ind v ++
        ',' :: '\n' :: stringifyFieldsF fuel ind k2 v2 gs

end

/-- `JSON.stringify(v, null, 2)` at indentation depth `ind` (characters). -/
def stringifyAux (ind : Nat) (v : JValue) : List Char :=
  stringifyAuxF (sizeJ v) ind v

/-- Array items of `JSON.stringify(·, null, 2)` (characters). -/
def stringifyItems (ind : Nat) (x : JValue) (xs : List JValue) : List Char :=
  stringifyItemsF (sizeJ x + sizeJList xs) ind x xs

/-- Object entries of `JSON.stringify(·, null, 2)` (characters). -/
def stringifyFields (ind : Nat) (k : String) (v : JValue) (fs : List (String × JValue)) :
    List Char :=
  stringifyFieldsF (sizeJ v + sizeJFields fs) ind k v fs

/-- `JSON.stringify(v, null, 2)`: the pretty serialization used throughout the
component. -/
def jsonStringify (v : JValue) : String :=
  String.mk (stringifyAux 0 v)

/-! ### The `JSON.parse` model

A recursive-descent parser for the JSON grammar accepted by JavaScript's
`JSON.parse`, restricted to integer numeric literals (fraction and exponent
parts are outside the model).  Duplicate object keys follow the JS rule: the
first occurrence fixes the position, the last occurrence fixes the value.
Recursion is fuelled; `parseJson` supplies fuel `length + 1`, which the
round-trip theorems show is sufficient. -/

/-- JSON insignificant whitespace (space, newline, tab, carriage return). -/
def isWsChar (c : Char) : Bool :=
  c = ' ' || c = '\n' || c = '\t' || c = '\r'

/-- Drop leading JSON whitespace. -/
def skipWs : List Char → List Char
  | [] => []
  | c :: cs => if isWsChar c then skipWs cs else c :: cs

/-- ASCII decimal digit test. -/
def isDigitChar (c : Char) : Bool :=
  48 ≤ c.toNat && c.toNat ≤ 57

/-- Numeric value of a decimal digit character. -/
def digitVal (c : Char) : Nat :=
  c.toNat - 48

/-- Split off the maximal leading run of decimal digits. -/
def takeDigits : List Char → List Char × List Char
  | [] => ([], [])
  | c :: cs =>
    if isDigitChar c then
      let p := takeDigits cs
      (c :: p.1, p.2)
    else ([], c :: cs)

/-- Value of a digit string, most significant first, with accumulator. -/
def digitsToNat (acc : Nat) : List Char → Nat
  | [] => acc
  | c :: cs => digitsToNat (acc * 10 + digitVal c) cs

/-- Parse an unsigned JSON integer literal: a maximal digit run, rejecting a
leading zero on a multi-digit literal (JSON forbids `01`). -/
def parseNatPart (cs : List Char) : Option (Nat × List Char) :=
  let p := takeDigits cs
  match p.1 with
  | [] => none
  | d :: ds =>
    if d = '0' && !ds.isEmpty then none
    else some (digitsToNat 0 (d :: ds), p.2)

/-- Parse a JSON integer literal with optional leading minus sign. -/
def parseNumber : List Char → Option (Int × List Char)
  | '-' :: cs =>
    match parseNatPart cs with
    | some p => some (-(p.1 : Int), p.2)
    | none => none
  | cs =>
    match parseNatPart cs with
    | some p => some ((p.1 : Int), p.2)
    | none => none

/-- Value of a single-character JSON string escape (`\"`, `\\`, `\/`, `\b`,
`\f`, `\n`, `\r`, `\t`). -/
def unescape? (c : Char) : Option Char :=
  if c = '"' then some '"'
  else if c = '\\' then some '\\'
  else if c = '/' then some '/'
  else if c = 'b' then some '\x08'
  else if c = 'f' then some '\x0c'
  else if c = 'n' then some '\n'
  else if c = 'r' then some '\r'
  else if c = 't' then some '\t'
  else none

/-- Value of a hexadecimal digit character, upper or lower case. -/
def hexVal? (c : Char) : Option Nat :=
  if 48 ≤ c.toNat && c.toNat ≤ 57 then some (c.toNat - 48)
  else if 97 ≤ c.toNat && c.toNat ≤ 102 then some (c.toNat - 87)
  else if 65 ≤ c.toNat && c.toNat ≤ 70 then some (c.toNat - 55)
  else none

/-- Parse the body of a JSON string literal after the opening quote, with a
reversed accumulator; stops at the closing quote.  Raw control characters are
rejected, as in `JSON.parse`.  (`\u` escapes denoting surrogate halves are
outside the model: Lean characters are Unicode scalar values.) -/
def parseStringBody (acc : List Char) : List Char → Option (String × List Char)
  | [] => none
  | c :: cs =>
    if c = '"' then some (String.mk acc.reverse, cs)
    else if c = '\\' then
      match cs with
      | [] => none
      | e :: rest =>
        if e = 'u' then
          match rest with
          | h1 :: h2 :: h3 :: h4 :: rest2 =>
            match hexVal? h1, hexVal? h2, hexVal? h3, hexVal? h4 with
            | some a, some b, some c2, some d =>
                parseStringBody (Char.ofNat (((a * 16 + b) * 16 + c2) * 16 + d) :: acc) rest2
            | _, _, _, _ => none
          | _ => none
        else
          match unescape? e with
          | some d => parseStringBody (d :: acc) rest
          | none => none
    else if c.toNat < 32 then none
    else parseStringBody (c :: acc) cs

/-- Insert a key/value entry in JS object-literal style: an existing key keeps
its position and receives the new value; a new key is appended. -/
def insertField (fs : List (String × JValue)) (k : String) (v : JValue) :
    List (String × JValue) :=
  match fs with
  | [] => [(k, v)]
  | (k2, v2) :: rest => if k2 = k then (k2, v) :: rest else (k2, v2) :: insertField rest k v

/-- Collapse a parsed entry list to a JS object: first occurrence fixes the
position of a key, last occurrence fixes its value. -/
def objOfEntries (entries : List (String × JValue)) : List (String × JValue) :=
  entries.foldl (fun acc e => insertField acc e.1 e.2) []

mutual

/-- Fuelled JSON value parser: skips leading whitespace, dispatches on the
first significant character. -/
def parseVal : Nat → List Char → Option (JValue × List Char)
  | 0, _ => none
  | fuel + 1, cs =>
    match skipWs cs with
    | [] => none
    | c :: rest =>
      if c = 'n' then
        match rest with
        | 'u' :: 'l' :: 'l' :: r => some (.null, r)
        | _ => none
      else if c = 't' then
        match rest with
        | 'r' :: 'u' :: 'e' :: r => some (.bool true, r)
        | _ => none
      else if c = 'f' then
        match rest with
        | 'a' :: 'l' :: 's' :: 'e' :: r => some (.bool false, r)
        | _ => none
      else if c = '"' then
        match parseStringBody [] rest with
        | some p => some (.str p.1, p.2)
        | none => none
      else if c = '[' then
        let r2 := skipWs rest
        if r2.head? = some ']' then some (.arr [], r2.tail)
        else
          match parseItems fuel r2 with
          | some p => some (.arr p.1, p.2)
          | none => none
      else if c = '\x7b' then
        let r2 := skipWs rest
        if r2.head? = some '\x7d' then some (.obj [], r2.tail)
        else
          match parseFields fuel r2 with
          | some p => some (.obj (objOfEntries p.1), p.2)
          | none => none
      else if c = '-' || isDigitChar c then
        match parseNumber (c :: rest) with
        | some p => some (.num p.1, p.2)
        | none => none
      else none

/-- Fuelled parser for the comma-separated items of a non-empty array,
including the closing bracket. -/
def parseItems : Nat → List Char → Option (List JValue × List Char)
  | 0, _ => none
  | fuel + 1, cs =>
    match parseVal fuel cs with
    | none => none
    | some vp =>
      let r1 := skipWs vp.2
      if r1.head? = some ',' then
        match parseItems fuel r1.tail with
        | some p => some (vp.1 :: p.1, p.2)
        | none => none
      else if r1.head? = some ']' then some ([vp.1], r1.tail)
      else none

/-- Fuelled parser for the comma-separated entries of a non-empty object,
including the closing brace.  Entries are returned in textual order; the
caller collapses duplicates. -/
def parseFields : Nat → List Char → Option (List (String × JValue) × List Char)
  | 0, _ => none
  | fuel + 1, cs =>
    match skipWs cs with
    | [] => none
    | c :: rest =>
      if c = '"' then
        match parseStringBody [] rest with
        | none => none
        | some kp =>
          let r1 := skipWs kp.2
          if r1.head? = some ':' then
            match parseVal fuel r1.tail with
            | none => none
            | some vp =>
              let r2 := skipWs vp.2
              if r2.head? = some ',' then
                match parseFields fuel r2.tail with
                | some p => some ((kp.1, vp.1) :: p.1, p.2)
                | none => none
              else if r2.head? = some '\x7d' then some ([(kp.1, vp.1)], r2.tail)
              else none
          else none
      else none

end

/-- The model of `JSON.parse`: `none` is a thrown `SyntaxError`.  Trailing
non-whitespace is rejected. -/
def parseJson (s : String) : Option JValue :=
  match parseVal (s.length + 1) s.data with
  | some p => if skipWs p.2 = [] then some p.1 else none
  | none => none

/-! ### Path segments and the path-walking update

`NodeData["path"]` is `(string | number)[]`; array indices are natural
numbers.  The walk in `updateJsonAtPath` mutates through a pointer `current`;
the embedding makes the rebuilding of the spine explicit.  JavaScript
behaviours modelled exactly:

- `key in current` is own-property membership (`JSON`-derived data has no
  interesting prototype properties);
- a numeric key used on an object is coerced to its decimal string;
- a canonical numeric string used on an array acts as an index;
- out-of-bounds index assignment pads with holes, observationally `null`
  under `JSON.stringify`;
- `"length" in arr` holds, and walking through it reaches a number primitive,
  so the next step throws; assigning `length` a number resizes the array and
  anything else throws a `RangeError` (numeric-string coercions of the length
  value are not modelled);
- any other string key on an array is an expando property, invisible to
  `JSON.stringify`: the rest of the walk proceeds in detached fresh
  containers and cannot throw, so the array is returned unchanged;
- `in`, property access and strict-mode property assignment on a primitive
  (`null`, boolean, number, string) throw `TypeError`. -/

/-- A segment of `NodeData["path"]`: an object key or an array index. -/
inductive PathSeg where
  | str (s : String) : PathSeg
  | num (n : Nat) : PathSeg
  deriving Repr, DecidableEq

/-- JS property-key coercion of a path segment. -/
def segKey : PathSeg → String
  | .str s => s
  | .num n => natRepr n

/-- `typeof path[i + 1] === "number"`: the test deciding whether a missing
intermediate container is created as an array or as an object. -/
def segIsNum : PathSeg → Bool
  | .str _ => false
  | .num _ => true

/-- The fresh container created at a missing intermediate step:
`typeof path[i+1] === "number" ? [] : \x7b\x7d`. -/
def freshContainer (next : PathSeg) : JValue :=
  if segIsNum next then .arr [] else .obj []

/-- The canonical array-index reading of a string, when it has one
(a digit run with no superfluous leading zero). -/
def canonIndex? (s : String) : Option Nat :=
  match s.data with
  | [] => none
  | d :: ds =>
    if (d = '0' && !ds.isEmpty) || !(d :: ds).all isDigitChar then none
    else some (digitsToNat 0 (d :: ds))

/-- Look up a key in an object's own fields. -/
def lookupField (fs : List (String × JValue)) (k : String) : Option JValue :=
  match fs with
  | [] => none
  | (k2, v2) :: rest => if k2 = k then some v2 else lookupField rest k

/-- Array element assignment `xs[n] = v`, padding out-of-bounds indices with
holes (observationally `null`). -/
def padSet (xs : List JValue) (n : Nat) (v : JValue) : List JValue :=
  if n < xs.length then xs.set n v
  else xs ++ List.replicate (n - xs.length) JValue.null ++ [v]

/-- `arr.length = m`: truncate or pad with holes (observationally `null`). -/
def resizeTo (xs : List JValue) (m : Nat) : List JValue :=
  if m ≤ xs.length then xs.take m
  else xs ++ List.replicate (m - xs.length) JValue.null

/-- The final assignment `current[lastKey] = parsedValue` of
`updateJsonAtPath`.  `Except.error` is a thrown `TypeError`/`RangeError`. -/
def setSeg (cur : JValue) (k : PathSeg) (v : JValue) : Except Unit JValue :=
  match cur, k with
  | .obj fs, k => .ok (.obj (insertField fs (segKey k) v))
  | .arr xs, .num n => .ok (.arr (padSet xs n v))
  | .arr xs, .str s =>
    match canonIndex? s with
    | some n => .ok (.arr (padSet xs n v))
    | none =>
      if s = "length" then
        match v with
        | .num m => if 0 ≤ m then .ok (.arr (resizeTo xs m.toNat)) else .error ()
        | _ => .error ()
      else .ok (.arr xs)
  | _, _ => .error ()

/-- The walk of `updateJsonAtPath` over a non-empty path: all segments but the
last move `current`, creating `freshContainer` at a missing step; the last
segment is assigned `v`.  `Except.error` is a thrown exception, caught by the
enclosing `try`. -/
def setPath (cur : JValue) : List PathSeg → JValue → Except Unit JValue
  | [], _ => .ok cur
  | [k], v => setSeg cur k v
  | k :: k2 :: rest, v =>
    match cur, k with
    | .obj fs, k =>
      let key := segKey k
      match lookupField fs key with
      | some child =>
        match setPath child (k2 :: rest) v with
        | .ok child2 => .ok (.obj (insertField fs key child2))
        | .error e => .error e
      | none =>
        match setPath (freshContainer k2) (k2 :: rest) v with
        | .ok child2 => .ok (.obj (insertField fs key child2))
        | .error e => .error e
    | .arr xs, .num n =>
      if h : n < xs.length then
        match setPath (xs.get ⟨n, h⟩) (k2 :: rest) v with
        | .ok child2 => .ok (.arr (xs.set n child2))
        | .error e => .error e
      else
        match setPath (freshContainer k2) (k2 :: rest) v with
        | .ok child2 => .ok (.arr (padSet xs n child2))
        | .error e => .error e
    | .arr xs, .str s =>
      match canonIndex? s with
      | some n =>
        if h : n < xs.length then
          match setPath (xs.get ⟨n, h⟩) (k2 :: rest) v with
          | .ok child2 => .ok (.arr (xs.set n child2))
          | .error e => .error e
        else
          match setPath (freshContainer k2) (k2 :: rest) v with
          | .ok child2 => .ok (.arr (padSet xs n child2))
          | .error e => .error e
      | none =>
        if s = "length" then
          -- `current` becomes the number `xs.length`; the walk continues on a
          -- primitive and throws at the next `in` or at the assignment.
          match setPath (.num xs.length) (k2 :: rest) v with
          | .ok _ => .ok (.arr xs)
          | .error e => .error e
        else
          -- expando property: the rest of the walk runs in detached fresh
          -- containers, never throws, and is invisible to `JSON.stringify`.
          .ok (.arr xs)
    | _, _ => .error ()

/-- `JSON.parse(newValue)` with the raw-string fallback used at the final
assignment: on parse failure the raw text itself is assigned. -/
def parseValueOrRaw (newValue : String) : JValue :=
  match parseJson newValue with
  | some v => v
  | none => .str newValue

/-- The empty-path branch of `updateJsonAtPath`: `JSON.parse` the new value
and re-serialize, else JSON-encode it as a string literal. -/
def jsonStringifyNewValue (newValue : String) : String :=
  match parseJson newValue with
  | some v => jsonStringify v
  | none => jsonStringify (.str newValue)

/-- `updateJsonAtPath(json, path, newValue)` from
`src/features/modals/NodeModal/index.tsx` (lines 42-83): parse the document;
with an empty or absent path replace the whole document by the parsed new
value, falling back to a JSON-encoded string literal; otherwise walk the path
and assign, then re-serialize with 2-space indentation.  Any thrown exception
is caught and the original `json` string is returned verbatim. -/
def updateJsonAtPath (json : String) (path : Option (List PathSeg)) (newValue : String) :
    String :=
  match parseJson json with
  | none => json
  | some obj =>
    match path with
    | none => jsonStringifyNewValue newValue
    | some [] => jsonStringifyNewValue newValue
    | some (k :: ks) =>
      match setPath obj (k :: ks) (parseValueOrRaw newValue) with
      | .ok obj2 => jsonStringify obj2
      | .error _ => json

/-! ### `normalizeNodeData` and `jsonPathToString` -/

mutual

/-- Fuelled JavaScript string coercion (see `jsToString`). -/
def jsToStringF : Nat → JValue → String
  | 0, _ => ""
  | fuel + 1, v =>
    match v with
    | .null => "null"
    | .bool true => "true"
    | .bool false => "false"
    | .num n => intRepr n
    | .str s => s
    | .arr [] => ""
    | .arr (x :: xs) => jsToStringItemsF fuel x xs
    | .obj _ => "[object Object]"

/-- Fuelled `Array.prototype.join(",")` over the elements' coercions. -/
def jsToStringItemsF : Nat → JValue → List JValue → String
  | 0, _, _ => ""
  | fuel + 1, x, [] => jsToStringElemF fuel x
  | fuel + 1, x, y :: ys => jsToStringElemF fuel x ++ "," ++ jsToStringItemsF fuel y ys

/-- Fuelled element coercion under `Array.prototype.join`: `null` renders
empty. -/
def jsToStringElemF : Nat → JValue → String
  | 0, _ => ""
  | fuel + 1, v =>
    match v with
    | .null => ""
    | v2 => jsToStringF fuel v2

end

/-- JavaScript string coercion of a value, as produced by the template
literal `` `${nodeRows[0].value}` ``: strings are verbatim, arrays join with
commas (`null` elements becoming empty), objects print `[object Object]`. -/
def jsToString (v : JValue) : String :=
  jsToStringF (2 * sizeJ v) v

/-- A row of `NodeData["text"]`: `\x7bkey?, value, type\x7d`.  The `type` tag
is the string the source compares against `"array"` / `"object"`. -/
structure NodeRow where
  key : Option String
  value : JValue
  type : String
  deriving Repr

/-- JS truthiness of `row.key`: `undefined` and the empty string are falsy. -/
def keyTruthy : Option String → Bool
  | none => false
  | some s => !s.isEmpty

/-- The `forEach` accumulation of `normalizeNodeData`: keep a row's key/value
when its type is neither `"array"` nor `"object"` and its key is truthy;
assignment into the object literal follows JS insertion-order semantics. -/
def rowsToFields (rows : List NodeRow) : List (String × JValue) :=
  rows.foldl
    (fun acc row =>
      if row.type ≠ "array" ∧ row.type ≠ "object" then
        if keyTruthy row.key then insertField acc (row.key.getD "") row.value else acc
      else acc)
    []

/-- `normalizeNodeData(nodeRows)` from the source (lines 21-32): `"\x7b\x7d"`
for an empty or absent row list; the bare string coercion of the value for a
single keyless row; otherwise the 2-space serialization of the scalar
key/value rows. -/
def normalizeNodeData : Option (List NodeRow) → String
  | none => "\x7b\x7d"
  | some [] => "\x7b\x7d"
  | some [row] =>
    if !keyTruthy row.key then jsToString row.value
    else jsonStringify (.obj (rowsToFields [row]))
  | some rows => jsonStringify (.obj (rowsToFields rows))

/-- The rendering of one path segment inside `jsonPathToString`: numbers
unquoted, strings double-quoted (template literal, no escaping). -/
def segRender : PathSeg → String
  | .num n => natRepr n
  | .str s => "\"" ++ s ++ "\""

/-- `Array.prototype.join(sep)`: elements interleaved with the separator. -/
def joinSep (sep : String) : List String → String
  | [] => ""
  | [a] => a
  | a :: rest => a ++ sep ++ joinSep sep rest

/-- `jsonPathToString(path)` from the source (lines 35-39): `"$"` when the
path is absent or empty, else `$[seg1][seg2]...`. -/
def jsonPathToString : Option (List PathSeg) → String
  | none => "$"
  | some [] => "$"
  | some segs => "$[" ++ joinSep "][" (segs.map segRender) ++ "]"

/-! ### The `NodeModal` component

State-transition model of the view.  Local state is the edit-mode flag and
the edit buffer; the external stores are the JSON-document store
(`useJson`), the file-content store (`useFile`) and the graph store
(`useGraph`, holding the node list and the selection).  `handleSave` returns
the new local state, the new stores, whether the blocking alert fired, and
the scheduled one-shot callback (delay in milliseconds paired with the
captured original node id), if any. -/

/-- The selected node's snapshot: identifier, rows, structural path. -/
structure NodeData where
  id : String
  text : Option (List NodeRow)
  path : Option (List PathSeg)
  deriving Repr

/-- The component's local React state. -/
structure ModalState where
  isEditing : Bool
  editValue : String
  deriving Repr, DecidableEq

/-- The external stores the component reads and writes. -/
structure AppStores where
  json : String
  contents : String
  hasChanges : Bool
  nodes : List NodeData
  selectedNode : Option NodeData
  deriving Repr

/-- A scheduled `setTimeout`: the fixed delay and the captured
`originalNodeId`. -/
structure ScheduledReselect where
  delay : Nat
  originalNodeId : String
  deriving Repr, DecidableEq

/-- The observable outcome of one `handleSave` invocation. -/
structure SaveOutcome where
  state : ModalState
  stores : AppStores
  alertShown : Bool
  scheduled : Option ScheduledReselect
  deriving Repr

/-- `handleSave` (source lines 105-134): compute the updated document, then
`JSON.parse` it as validation.  On success, write the document store and the
file-content store (`hasChanges: true`), leave edit mode and schedule the
200 ms reselection; on a validation throw, fall to the `catch` — no store is
touched, the modal stays as it was, and the blocking alert fires. -/
def handleSave (nodeData : Option NodeData) (st : ModalState) (stores : AppStores) :
    SaveOutcome :=
  match nodeData with
  | none => ⟨st, stores, false, none⟩
  | some nd =>
    let updatedJson := updateJsonAtPath stores.json nd.path st.editValue
    match parseJson updatedJson with
    | some _ =>
      ⟨⟨false, st.editValue⟩,
       { stores with json := updatedJson, contents := updatedJson, hasChanges := true },
       false,
       some ⟨200, nd.id⟩⟩
    | none => ⟨st, stores, true, none⟩

/-- The body of the scheduled callback (source lines 123-129): re-read the
node list, find the node with the captured id, and reselect it only when it
still exists. -/
def runReselect (originalNodeId : String) (stores : AppStores) : AppStores :=
  match stores.nodes.find? (fun node => node.id == originalNodeId) with
  | some updatedNode => { stores with selectedNode := some updatedNode }
  | none => stores

/-- `handleEdit`: enter edit mode (the buffer is then populated by the
effect below, which reacts to the `isEditing` dependency change). -/
def handleEdit (st : ModalState) : ModalState :=
  { st with isEditing := true }

/-- `handleCancel`: clear the buffer and leave edit mode. -/
def handleCancel (_st : ModalState) : ModalState :=
  ⟨false, ""⟩

/-- The `useEffect` with dependencies `[nodeData, isEditing]` (source lines
95-99): whenever either changes, if a node is selected and the modal is in
edit mode, the buffer is overwritten with the normalized rows of the
currently selected node. -/
def editEffect (nodeData : Option NodeData) (st : ModalState) : ModalState :=
  match nodeData with
  | some nd => if st.isEditing then { st with editValue := normalizeNodeData (some (nd.text.getD [])) } else st
  | none => st

/-! ### Observation helpers used only to state properties -/

/-- One bracketed term per path segment, in order (observation used to state
the specified shape of `jsonPathToString`; not part of the source). -/
def bracketTerms : List PathSeg → String
  | [] => ""
  | s :: rest => "[" ++ segRender s ++ "]" ++ bracketTerms rest

/-- Read the value at a path (straightforward observation; not part of the
source). -/
def getAtPath : JValue → List PathSeg → Option JValue
  | v, [] => some v
  | .obj fs, k :: ks =>
    match lookupField fs (segKey k) with
    | some child => getAtPath child ks
    | none => none
  | .arr xs, .num n :: ks =>
    match xs.get? n with
    | some child => getAtPath child ks
    | none => none
  | _, _ => none

/-- Key deduplication check: no key occurs twice (JS objects cannot). -/
def distinctKeys : List (String × JValue) → Bool
  | [] => true
  | (k, _) :: fs => !(fs.any (fun g => g.1 == k)) && distinctKeys fs

mutual

/-- Well-formedness: a value in the image of `JSON.parse` — every object has
pairwise distinct keys.  All operations of the component preserve it. -/
def wfJ : JValue → Bool
  | .null => true
  | .bool _ => true
  | .num _ => true
  | .str _ => true
  | .arr xs => wfJList xs
  | .obj fs => distinctKeys fs && wfJFields fs

/-- Well-formedness of a list of values. -/
def wfJList : List JValue → Bool
  | [] => true
  | x :: xs => wfJ x && wfJList xs

/-- Well-formedness of an object's field values. -/
def wfJFields : List (String × JValue) → Bool
  | [] => true
  | (_, v) :: fs => wfJ v && wfJFields fs

end

/-! ### Fuel congruence: every fuelled definition is fuel-independent above
its structural size, so the wrappers satisfy the intended recurrences. -/

theorem sizeJ_pos (v : JValue) : 1 ≤ sizeJ v := by
  cases v <;> simp [sizeJ]

theorem sizeJList_pos (xs : List JValue) : 1 ≤ sizeJList xs := by
  cases xs <;> simp [sizeJList] <;> omega

theorem sizeJFields_pos (fs : List (String × JValue)) : 1 ≤ sizeJFields fs := by
  cases fs with
  | nil => simp [sizeJFields]
  | cons f gs => cases f; simp [sizeJFields]; omega

theorem natCharsF_congr : ∀ f1 f2 n, n < f1 → n < f2 → natCharsF f1 n = natCharsF f2 n := by
  intro f1
  induction f1 with
  | zero => omega
  | succ f ih =>
    intro f2 n h1 h2
    cases f2 with
    | zero => omega
    | succ f2 =>
      by_cases h10 : n < 10
      · simp [natCharsF, h10]
      · have hd : n / 10 < n := Nat.div_lt_self (by omega) (by omega)
        simp only [natCharsF, if_neg h10]
        rw [ih f2 (n / 10) (by omega) (by omega)]

theorem natChars_eq (n : Nat) :
    natChars n =
      if n < 10 then [Nat.digitChar n]
      else natChars (n / 10) ++ [Nat.digitChar (n % 10)] := by
  have step : natCharsF (n + 1) n =
      if n < 10 then [Nat.digitChar n]
      else natCharsF n (n / 10) ++ [Nat.digitChar (n % 10)] := rfl
  by_cases h10 : n < 10
  · rw [if_pos h10]
    rw [natChars, step, if_pos h10]
  · have hd : n / 10 < n := Nat.div_lt_self (by omega) (by omega)
    rw [if_neg h10]
    unfold natChars
    rw [step, if_neg h10, natCharsF_congr n (n / 10 + 1) (n / 10) (by omega) (by omega)]

theorem stringifyF_congr (f1 : Nat) :
    (∀ f2 ind v, sizeJ v ≤ f1 → sizeJ v ≤ f2 →
      stringifyAuxF f1 ind v = stringifyAuxF f2 ind v) ∧
    (∀ f2 ind x xs, sizeJ x + sizeJList xs ≤ f1 → sizeJ x + sizeJList xs ≤ f2 →
      stringifyItemsF f1 ind x xs = stringifyItemsF f2 ind x xs) ∧
    (∀ f2 ind k v fs, sizeJ v + sizeJFields fs ≤ f1 → sizeJ v + sizeJFields fs ≤ f2 →
      stringifyFieldsF f1 ind k v fs = stringifyFieldsF f2 ind k v fs) := by
  induction f1 with
  | zero =>
    refine ⟨fun f2 ind v h1 _ => ?_, fun f2 ind x xs h1 _ => ?_, fun f2 ind k v fs h1 _ => ?_⟩
    · exact absurd h1 (by have := sizeJ_pos v; omega)
    · exact absurd h1 (by have := sizeJ_pos x; omega)
    · exact absurd h1 (by have := sizeJ_pos v; omega)
  | succ f ih =>
    refine ⟨fun f2 ind v h1 h2 => ?_, fun f2 ind x xs h1 h2 => ?_,
      fun f2 ind k v fs h1 h2 => ?_⟩
    · cases f2 with
      | zero => exact absurd h2 (by have := sizeJ_pos v; omega)
      | succ f2 =>
        cases v with
        | null => rfl
        | bool b => cases b <;> rfl
        | num n => rfl
        | str s => rfl
        | arr xs =>
          cases xs with
          | nil => rfl
          | cons x xs =>
            have hx : sizeJ (JValue.arr (x :: xs)) = 2 + sizeJ x + sizeJList xs := by
              simp [sizeJ, sizeJList]; omega
            rw [hx] at h1 h2
            simp only [stringifyAuxF]
            rw [(ih.2.1) f2 (ind + 2) x xs (by omega) (by omega)]
        | obj fs =>
          cases fs with
          | nil => rfl
          | cons g gs =>
            cases g with
            | mk k v2 =>
              have hx : sizeJ (JValue.obj ((k, v2) :: gs)) = 2 + sizeJ v2 + sizeJFields gs := by
                simp [sizeJ, sizeJFields]; omega
              rw [hx] at h1 h2
              simp only [stringifyAuxF]
              rw [(ih.2.2) f2 (ind + 2) k v2 gs (by omega) (by omega)]
    · cases f2 with
      | zero => exact absurd h2 (by have := sizeJ_pos x; omega)
      | succ f2 =>
        cases xs with
        | nil =>
          have hx : sizeJList ([] : List JValue) = 1 := by simp [sizeJList]
          rw [hx] at h1 h2
          simp only [stringifyItemsF]
          rw [ih.1 f2 ind x (by omega) (by omega)]
        | cons y ys =>
          have hx : sizeJList (y :: ys) = 1 + sizeJ y + sizeJList ys := by simp [sizeJList]
          rw [hx] at h1 h2
          have hy := sizeJ_pos y
          have hys := sizeJList_pos ys
          have hxp := sizeJ_pos x
          simp only [stringifyItemsF]
          rw [ih.1 f2 ind x (by omega) (by omega),
            (ih.2.1) f2 ind y ys (by omega) (by omega)]
    · cases f2 with
      | zero => exact absurd h2 (by have := sizeJ_pos v; omega)
      | succ f2 =>
        cases fs with
        | nil =>
          have hx : sizeJFields ([] : List (String × JValue)) = 1 := by simp [sizeJFields]
          rw [hx] at h1 h2
          simp only [stringifyFieldsF]
          rw [ih.1 f2 ind v (by omega) (by omega)]
        | cons g gs =>
          cases g with
          | mk k2 v2 =>
            have hx : sizeJFields ((k2, v2) :: gs) = 1 + sizeJ v2 + sizeJFields gs := by
              simp [sizeJFields]
            rw [hx] at h1 h2
            have hv := sizeJ_pos v
            have hv2 := sizeJ_pos v2
            have hgs := sizeJFields_pos gs
            simp only [stringifyFieldsF]
            rw [ih.1 f2 ind v (by omega) (by omega),
              (ih.2.2) f2 ind k2 v2 gs (by omega) (by omega)]

theorem stringifyAux_arr_cons (ind : Nat) (x : JValue) (xs : List JValue) :
    stringifyAux ind (.arr (x :: xs)) =
      '[' :: '\n' :: stringifyItems (ind + 2) x xs ++ '\n' :: spaces ind ++ [']'] := by
  have hx : sizeJ (JValue.arr (x :: xs)) = (1 + sizeJ x + sizeJList xs) + 1 := by
    simp [sizeJ, sizeJList]; omega
  show stringifyAuxF (sizeJ (JValue.arr (x :: xs))) ind (.arr (x :: xs)) = _
  rw [hx]
  show '[' :: '\n' :: stringifyItemsF (1 + sizeJ x + sizeJList xs) (ind + 2) x xs ++
    '\n' :: spaces ind ++ [']'] = _
  rw [(stringifyF_congr (1 + sizeJ x + sizeJList xs)).2.1 (sizeJ x + sizeJList xs)
    (ind + 2) x xs (by omega) (le_refl _)]
  rfl

theorem stringifyAux_obj_cons (ind : Nat) (k : String) (v : JValue)
    (fs : List (String × JValue)) :
    stringifyAux ind (.obj ((k, v) :: fs)) =
      '\x7b' :: '\n' :: stringifyFields (ind + 2) k v fs ++ '\n' :: spaces ind ++ ['\x7d'] := by
  have hx : sizeJ (JValue.obj ((k, v) :: fs)) = (1 + sizeJ v + sizeJFields fs) + 1 := by
    simp [sizeJ, sizeJFields]; omega
  show stringifyAuxF (sizeJ (JValue.obj ((k, v) :: fs))) ind (.obj ((k, v) :: fs)) = _
  rw [hx]
  show '\x7b' :: '\n' :: stringifyFieldsF (1 + sizeJ v + sizeJFields fs) (ind + 2) k v fs ++
    '\n' :: spaces ind ++ ['\x7d'] = _
  rw [(stringifyF_congr (1 + sizeJ v + sizeJFields fs)).2.2 (sizeJ v + sizeJFields fs)
    (ind + 2) k v fs (by omega) (le_refl _)]
  rfl

theorem stringifyItems_nil (ind : Nat) (x : JValue) :
    stringifyItems ind x [] = spaces ind ++ stringifyAux ind x := rfl

theorem stringifyItems_cons (ind : Nat) (x y : JValue) (ys : List JValue) :
    stringifyItems ind x (y :: ys) =
      spaces ind ++ stringifyAux ind x ++ ',' :: '\n' :: stringifyItems ind y ys := by
  have hx : sizeJ x + sizeJList (y :: ys) = (sizeJ x + sizeJ y + sizeJList ys) + 1 := by
    simp [sizeJList]; omega
  show stringifyItemsF (sizeJ x + sizeJList (y :: ys)) ind x (y :: ys) = _
  rw [hx]
  show spaces ind ++ stringifyAuxF (sizeJ x + sizeJ y + sizeJList ys) ind x ++
    ',' :: '\n' :: stringifyItemsF (sizeJ x + sizeJ y + sizeJList ys) ind y ys = _
  have hy := sizeJ_pos y
  have hys := sizeJList_pos ys
  have hxp := sizeJ_pos x
  rw [(stringifyF_congr (sizeJ x + sizeJ y + sizeJList ys)).1 (sizeJ x) ind x
    (by omega) (le_refl _)]
  rw [(stringifyF_congr (sizeJ x + sizeJ y + sizeJList ys)).2.1 (sizeJ y + sizeJList ys)
    ind y ys (by omega) (le_refl _)]
  rfl

theorem stringifyFields_nil (ind : Nat) (k : String) (v : JValue) :
    stringifyFields ind k v [] = spaces ind ++ quoteString k ++ ':' :: ' ' :: stringifyAux ind v := rfl

theorem stringifyFields_cons (ind : Nat) (k : String) (v : JValue) (k2 : String)
    (v2 : JValue) (gs : List (String × JValue)) :
    stringifyFields ind k v ((k2, v2) :: gs) =
      spaces ind ++ quoteString k ++ ':' :: ' ' :: stringifyAux ind v ++
        ',' :: '\n' :: stringifyFields ind k2 v2 gs := by
  have hx : sizeJ v + sizeJFields ((k2, v2) :: gs) = (sizeJ v + sizeJ v2 + sizeJFields gs) + 1 := by
    simp [sizeJFields]; omega
  show stringifyFieldsF (sizeJ v + sizeJFields ((k2, v2) :: gs)) ind k v ((k2, v2) :: gs) = _
  rw [hx]
  show spaces ind ++ quoteString k ++ ':' :: ' ' ::
      stringifyAuxF (sizeJ v + sizeJ v2 + sizeJFields gs) ind v ++
      ',' :: '\n' :: stringifyFieldsF (sizeJ v + sizeJ v2 + sizeJFields gs) ind k2 v2 gs = _
  have hv := sizeJ_pos v
  have hv2 := sizeJ_pos v2
  have hgs := sizeJFields_pos gs
  rw [(stringifyF_congr (sizeJ v + sizeJ v2 + sizeJFields gs)).1 (sizeJ v) ind v
    (by omega) (le_refl _)]
  rw [(stringifyF_congr (sizeJ v + sizeJ v2 + sizeJFields gs)).2.2 (sizeJ v2 + sizeJFields gs)
    ind k2 v2 gs (by omega) (le_refl _)]
  rfl

/-! ### Number round-trip: the parser reverses the decimal rendering. -/

/-- The character after a rendered number must not be a digit (the parser
takes the maximal digit run). -/
def noDigitHead (cs : List Char) : Prop :=
  ∀ c, cs.head? = some c → isDigitChar c = false

theorem isDigitChar_digitChar (n : Nat) (h : n < 10) :
    isDigitChar (Nat.digitChar n) = true := by
  interval_cases n <;> decide

theorem digitVal_digitChar (n : Nat) (h : n < 10) : digitVal (Nat.digitChar n) = n := by
  interval_cases n <;> decide

theorem digitChar_ne_zero (n : Nat) (h1 : 1 ≤ n) (h : n < 10) : Nat.digitChar n ≠ '0' := by
  interval_cases n <;> decide

theorem natChars_ne_nil (n : Nat) : natChars n ≠ [] := by
  rw [natChars_eq]
  by_cases h10 : n < 10
  · simp [h10]
  · simp [h10]

theorem natChars_all_digits (n : Nat) : ∀ c ∈ natChars n, isDigitChar c = true := by
  induction n using Nat.strong_induction_on with
  | _ n ih =>
    rw [natChars_eq]
    by_cases h10 : n < 10
    · simp only [if_pos h10, List.mem_singleton]
      rintro c rfl
      exact isDigitChar_digitChar n h10
    · simp only [if_neg h10, List.mem_append, List.mem_singleton]
      rintro c (hc | rfl)
      · exact ih (n / 10) (Nat.div_lt_self (by omega) (by omega)) c hc
      · exact isDigitChar_digitChar (n % 10) (Nat.mod_lt n (by omega))

theorem natChars_head_ne_zero :
    ∀ n, 1 ≤ n → ∀ d ds, natChars n = d :: ds → d ≠ '0' := by
  intro n
  induction n using Nat.strong_induction_on with
  | _ n ih =>
    intro h1 d ds hds
    rw [natChars_eq] at hds
    by_cases h10 : n < 10
    · rw [if_pos h10] at hds
      cases hds
      exact digitChar_ne_zero n h1 h10
    · rw [if_neg h10] at hds
      obtain ⟨d2, ds2, hd2⟩ : ∃ d2 ds2, natChars (n / 10) = d2 :: ds2 := by
        cases hnc : natChars (n / 10) with
        | nil => exact absurd hnc (natChars_ne_nil _)
        | cons a b => exact ⟨a, b, rfl⟩
      rw [hd2] at hds
      simp only [List.cons_append, List.cons.injEq] at hds
      obtain ⟨rfl, -⟩ := hds
      have hdiv : n / 10 < n := Nat.div_lt_self (by omega) (by omega)
      have h1b : 1 ≤ n / 10 := by omega
      exact ih (n / 10) hdiv h1b d2 ds2 hd2

theorem digitsToNat_append (acc : Nat) (ds1 ds2 : List Char) :
    digitsToNat acc (ds1 ++ ds2) = digitsToNat (digitsToNat acc ds1) ds2 := by
  induction ds1 generalizing acc with
  | nil => rfl
  | cons c cs ih => exact ih (acc * 10 + digitVal c)

theorem digitsToNat_natChars (n : Nat) :
    ∀ acc, digitsToNat acc (natChars n) = acc * 10 ^ (natChars n).length + n := by
  induction n using Nat.strong_induction_on with
  | _ n ih =>
    intro acc
    rw [natChars_eq]
    by_cases h10 : n < 10
    · rw [if_pos h10]
      have h1 : digitsToNat acc [Nat.digitChar n] = acc * 10 + digitVal (Nat.digitChar n) := rfl
      rw [h1, digitVal_digitChar n h10, List.length_singleton, pow_one]
    · rw [if_neg h10]
      rw [digitsToNat_append]
      rw [ih (n / 10) (Nat.div_lt_self (by omega) (by omega))]
      have h2 : digitsToNat (acc * 10 ^ (natChars (n / 10)).length + n / 10)
          [Nat.digitChar (n % 10)] =
          (acc * 10 ^ (natChars (n / 10)).length + n / 10) * 10 +
            digitVal (Nat.digitChar (n % 10)) := rfl
      rw [h2, digitVal_digitChar (n % 10) (Nat.mod_lt n (by omega))]
      rw [List.length_append, List.length_singleton, pow_succ]
      ring_nf
      omega

theorem takeDigits_no_digit (rest : List Char) (h : noDigitHead rest) :
    takeDigits rest = ([], rest) := by
  cases rest with
  | nil => rfl
  | cons c t =>
    have hc : isDigitChar c = false := h c rfl
    simp [takeDigits, hc]

theorem takeDigits_append (ds rest : List Char) (hds : ∀ c ∈ ds, isDigitChar c = true)
    (h : noDigitHead rest) : takeDigits (ds ++ rest) = (ds, rest) := by
  induction ds with
  | nil => simpa using takeDigits_no_digit rest h
  | cons c cs ih =>
    have hc : isDigitChar c = true := hds c (by simp)
    have ih2 := ih (fun c2 hc2 => hds c2 (by simp [hc2]))
    simp [takeDigits, List.cons_append, hc, List.append_eq, ih2]

theorem parseNatPart_natChars (n : Nat) (rest : List Char) (h : noDigitHead rest) :
    parseNatPart (natChars n ++ rest) = some (n, rest) := by
  obtain ⟨d, ds, hd⟩ : ∃ d ds, natChars n = d :: ds := by
    cases hnc : natChars n with
    | nil => exact absurd hnc (natChars_ne_nil _)
    | cons a b => exact ⟨a, b, rfl⟩
  have htake : takeDigits (natChars n ++ rest) = (natChars n, rest) :=
    takeDigits_append _ _ (natChars_all_digits n) h
  have hval : digitsToNat 0 (natChars n) = n := by
    have := digitsToNat_natChars n 0
    simpa using this
  have hcheck : (decide (d = '0') && !ds.isEmpty) = false := by
    by_cases hn1 : 1 ≤ n
    · have := natChars_head_ne_zero n hn1 d ds hd
      simp [this]
    · have hn0 : n = 0 := by omega
      subst hn0
      have h0 : natChars 0 = ['0'] := rfl
      rw [h0] at hd
      cases hd
      simp
  simp only [parseNatPart, htake]
  simp only [hd, hcheck, Bool.false_eq_true, if_false]
  rw [← hd, hval]

theorem natChars_head_not_minus (n : Nat) (d : Char) (ds : List Char)
    (hd : natChars n = d :: ds) : d ≠ '-' := by
  have := natChars_all_digits n d (by rw [hd]; simp)
  intro hcontra
  rw [hcontra] at this
  simp [isDigitChar] at this

theorem parseNumber_intChars (n : Int) (rest : List Char) (h : noDigitHead rest) :
    parseNumber (intChars n ++ rest) = some (n, rest) := by
  by_cases hn : n < 0
  · have : intChars n = '-' :: natChars n.natAbs := by simp [intChars, hn]
    rw [this]
    simp only [List.cons_append, parseNumber]
    rw [parseNatPart_natChars n.natAbs rest h]
    simp only [Option.some.injEq, Prod.mk.injEq]
    exact ⟨by omega, trivial⟩
  · have hic : intChars n = natChars n.natAbs := by simp [intChars, hn]
    obtain ⟨d, ds, hd⟩ : ∃ d ds, natChars n.natAbs = d :: ds := by
      cases hnc : natChars n.natAbs with
      | nil => exact absurd hnc (natChars_ne_nil _)
      | cons a b => exact ⟨a, b, rfl⟩
    have hdm : d ≠ '-' := natChars_head_not_minus _ _ _ hd
    rw [hic, hd]
    show parseNumber (d :: (ds ++ rest)) = some (n, rest)
    have harm : parseNumber (d :: (ds ++ rest)) =
        match parseNatPart (d :: (ds ++ rest)) with
        | some p => some ((p.1 : Int), p.2)
        | none => none := by
      unfold parseNumber
      split
      · next heq => cases heq; exact absurd rfl hdm
      · rfl
    rw [harm, ← List.cons_append, ← hd, parseNatPart_natChars n.natAbs rest h]
    simp only [Option.some.injEq, Prod.mk.injEq]
    exact ⟨by omega, trivial⟩

/-! ### Whitespace and string-literal round-trip lemmas. -/

theorem skipWs_cons_not_ws (c : Char) (cs : List Char) (h : isWsChar c = false) :
    skipWs (c :: cs) = c :: cs := by
  simp [skipWs, h]

theorem skipWs_append_ws (w cs : List Char) (h : ∀ c ∈ w, isWsChar c = true) :
    skipWs (w ++ cs) = skipWs cs := by
  induction w with
  | nil => simp
  | cons c t ih =>
    have hc : isWsChar c = true := h c (by simp)
    simp only [List.cons_append, skipWs, hc, if_true]
    exact ih (fun c2 hc2 => h c2 (by simp [hc2]))

theorem skipWs_spaces_append (n : Nat) (cs : List Char) :
    skipWs (spaces n ++ cs) = skipWs cs := by
  refine skipWs_append_ws _ _ (fun c hc => ?_)
  have : c = ' ' := by
    simpa [spaces] using (List.eq_of_mem_replicate hc)
  rw [this]
  decide

theorem skipWs_newline (cs : List Char) : skipWs ('\n' :: cs) = skipWs cs := by
  simp [skipWs, isWsChar]

theorem stringMk_data (s : String) : String.mk s.data = s := by
  cases s
  rfl

theorem hexVal?_digitChar (d : Nat) (h : d < 16) : hexVal? (Nat.digitChar d) = some d := by
  interval_cases d <;> decide

theorem parseStringBody_quote (acc rest : List Char) :
    parseStringBody acc ('"' :: rest) = some (String.mk acc.reverse, rest) := by
  rw [parseStringBody.eq_def]
  simp

theorem parseStringBody_esc (acc rest : List Char) (e d : Char)
    (he : unescape? e = some d) (hu : e ≠ 'u') :
    parseStringBody acc ('\\' :: e :: rest) = parseStringBody (d :: acc) rest := by
  rw [parseStringBody.eq_def]
  simp [hu, he]

theorem parseStringBody_unicode (acc : List Char) (hc1 hc2 hc3 hc4 : Char) (a b c2 d : Nat)
    (t : List Char) (e1 : hexVal? hc1 = some a) (e2 : hexVal? hc2 = some b)
    (e3 : hexVal? hc3 = some c2) (e4 : hexVal? hc4 = some d) :
    parseStringBody acc ('\\' :: 'u' :: hc1 :: hc2 :: hc3 :: hc4 :: t) =
      parseStringBody (Char.ofNat (((a * 16 + b) * 16 + c2) * 16 + d) :: acc) t := by
  rw [parseStringBody.eq_def]
  simp [e1, e2, e3, e4]

theorem parseStringBody_plain (acc : List Char) (c : Char) (t : List Char)
    (hq : ¬ c = '"') (hb : ¬ c = '\\') (hc : ¬ c.toNat < 32) :
    parseStringBody acc (c :: t) = parseStringBody (c :: acc) t := by
  rw [parseStringBody.eq_def]
  simp only [if_neg hq, if_neg hb, if_neg hc]

theorem parseStringBody_flatMap (l : List Char) :
    ∀ acc rest, parseStringBody acc (l.flatMap escapeChar ++ '"' :: rest) =
      some (String.mk (acc.reverse ++ l), rest) := by
  induction l with
  | nil =>
    intro acc rest
    rw [show ([] : List Char).flatMap escapeChar ++ '"' :: rest = '"' :: rest from by simp]
    rw [parseStringBody_quote]
    simp
  | cons c l ih =>
    intro acc rest
    rw [show (c :: l).flatMap escapeChar = escapeChar c ++ l.flatMap escapeChar from by simp,
      List.append_assoc]
    have push : ∀ a : Char,
        parseStringBody (a :: acc) (l.flatMap escapeChar ++ '"' :: rest) =
          some (String.mk (acc.reverse ++ a :: l), rest) := by
      intro a
      rw [ih (a :: acc) rest]
      simp
    generalize htail : l.flatMap escapeChar ++ '"' :: rest = tail at push ⊢
    unfold escapeChar
    split_ifs with h1 h2 h3 h4 h5 h6 h7 h8
    · subst h1
      simp only [List.cons_append, List.nil_append]
      rw [parseStringBody_esc _ _ '"' '"' (by decide) (by decide)]
      exact push '"'
    · subst h2
      simp only [List.cons_append, List.nil_append]
      rw [parseStringBody_esc _ _ '\\' '\\' (by decide) (by decide)]
      exact push '\\'
    · subst h3
      simp only [List.cons_append, List.nil_append]
      rw [parseStringBody_esc _ _ 'b' '\x08' (by decide) (by decide)]
      exact push '\x08'
    · subst h4
      simp only [List.cons_append, List.nil_append]
      rw [parseStringBody_esc _ _ 'f' '\x0c' (by decide) (by decide)]
      exact push '\x0c'
    · subst h5
      simp only [List.cons_append, List.nil_append]
      rw [parseStringBody_esc _ _ 'n' '\n' (by decide) (by decide)]
      exact push '\n'
    · subst h6
      simp only [List.cons_append, List.nil_append]
      rw [parseStringBody_esc _ _ 'r' '\r' (by decide) (by decide)]
      exact push '\r'
    · subst h7
      simp only [List.cons_append, List.nil_append]
      rw [parseStringBody_esc _ _ 't' '\t' (by decide) (by decide)]
      exact push '\t'
    · simp only [List.cons_append, List.nil_append]
      rw [parseStringBody_unicode acc '0' '0' (hexDigitChar (c.toNat / 16))
        (hexDigitChar (c.toNat % 16)) 0 0 (c.toNat / 16) (c.toNat % 16) _
        (by decide) (by decide) (hexVal?_digitChar _ (by omega)) (hexVal?_digitChar _ (by omega))]
      have harith : ((0 * 16 + 0) * 16 + c.toNat / 16) * 16 + c.toNat % 16 = c.toNat := by
        omega
      rw [harith, Char.ofNat_toNat]
      exact push c
    · simp only [List.cons_append, List.nil_append]
      rw [parseStringBody_plain _ c _ h1 h2 h8]
      exact push c

/-! ### Association-list and well-formedness lemmas. -/

theorem distinctKeys_iff (fs : List (String × JValue)) :
    distinctKeys fs = true ↔ (fs.map Prod.fst).Nodup := by
  induction fs with
  | nil => simp [distinctKeys]
  | cons g gs ih =>
    cases g with
    | mk k v =>
      simp only [distinctKeys, Bool.and_eq_true, List.map_cons, List.nodup_cons, ih]
      have hany : (gs.any (fun g => g.1 == k)) = false ↔ k ∉ gs.map Prod.fst := by
        constructor
        · intro ha hmem
          obtain ⟨g2, hg2, hk⟩ := List.mem_map.mp hmem
          have ht : gs.any (fun g => g.1 == k) = true :=
            List.any_eq_true.mpr ⟨g2, hg2, by simp [hk]⟩
          rw [ht] at ha
          cases ha
        · intro hnot
          cases hcase : gs.any (fun g => g.1 == k) with
          | false => rfl
          | true =>
            obtain ⟨g2, hg2, hk⟩ := List.any_eq_true.mp hcase
            exact absurd (List.mem_map.mpr ⟨g2, hg2, by simpa using hk⟩) hnot
      constructor
      · rintro ⟨h1, h2⟩
        refine ⟨hany.mp ?_, h2⟩
        cases hcase : gs.any (fun g => g.1 == k) with
        | false => rfl
        | true => rw [hcase] at h1; exact absurd h1 (by decide)
      · rintro ⟨h1, h2⟩
        refine ⟨?_, h2⟩
        rw [hany.mpr h1]
        rfl

theorem wfJList_iff (xs : List JValue) :
    wfJList xs = true ↔ ∀ x ∈ xs, wfJ x = true := by
  induction xs with
  | nil => simp [wfJList]
  | cons x t ih => simp [wfJList, ih]

theorem wfJFields_iff (fs : List (String × JValue)) :
    wfJFields fs = true ↔ ∀ g ∈ fs, wfJ g.2 = true := by
  induction fs with
  | nil => simp [wfJFields]
  | cons g gs ih =>
    cases g with
    | mk k v => simp [wfJFields, ih]

theorem insertField_keys_of_mem (fs : List (String × JValue)) (k : String) (v : JValue)
    (h : k ∈ fs.map Prod.fst) :
    (insertField fs k v).map Prod.fst = fs.map Prod.fst := by
  induction fs with
  | nil => simp at h
  | cons g gs ih =>
    cases g with
    | mk k2 v2 =>
      by_cases hk : k2 = k
      · simp [insertField, hk]
      · simp only [List.map_cons, List.mem_cons] at h
        have h2 : k ∈ gs.map Prod.fst := by
          rcases h with h | h
          · exact absurd h.symm hk
          · exact h
        simp [insertField, hk, ih h2]

theorem insertField_of_not_mem (fs : List (String × JValue)) (k : String) (v : JValue)
    (h : k ∉ fs.map Prod.fst) : insertField fs k v = fs ++ [(k, v)] := by
  induction fs with
  | nil => rfl
  | cons g gs ih =>
    cases g with
    | mk k2 v2 =>
      simp only [List.map_cons, List.mem_cons, not_or] at h
      simp [insertField, Ne.symm h.1, ih h.2]

theorem mem_insertField (fs : List (String × JValue)) (k : String) (v : JValue)
    (g : String × JValue) (h : g ∈ insertField fs k v) : g ∈ fs ∨ g = (k, v) := by
  induction fs with
  | nil =>
    right
    simpa [insertField] using h
  | cons g2 gs ih =>
    cases g2 with
    | mk k2 v2 =>
      by_cases hk : k2 = k
      · rw [show insertField ((k2, v2) :: gs) k v = (k2, v) :: gs from by
          simp [insertField, hk]] at h
        rcases List.mem_cons.mp h with h2 | h2
        · right
          rw [h2, hk]
        · left
          exact List.mem_cons_of_mem _ h2
      · rw [show insertField ((k2, v2) :: gs) k v = (k2, v2) :: insertField gs k v from by
          simp [insertField, hk]] at h
        rcases List.mem_cons.mp h with h2 | h2
        · left
          rw [h2]
          exact List.mem_cons_self _ _
        · rcases ih h2 with h3 | h3
          · left
            exact List.mem_cons_of_mem _ h3
          · right
            exact h3

theorem nodup_insertField (fs : List (String × JValue)) (k : String) (v : JValue)
    (h : (fs.map Prod.fst).Nodup) : ((insertField fs k v).map Prod.fst).Nodup := by
  by_cases hk : k ∈ fs.map Prod.fst
  · rw [insertField_keys_of_mem fs k v hk]
    exact h
  · rw [insertField_of_not_mem fs k v hk]
    simp only [List.map_append, List.map_singleton]
    exact List.Nodup.append h (List.nodup_singleton k) (by simpa using hk)

theorem foldl_insertField_nodup (entries : List (String × JValue)) :
    ∀ acc, (acc.map Prod.fst).Nodup →
      (((entries.foldl (fun a e => insertField a e.1 e.2) acc)).map Prod.fst).Nodup := by
  induction entries with
  | nil => intro acc h; simpa using h
  | cons e rest ih =>
    intro acc h
    exact ih (insertField acc e.1 e.2) (nodup_insertField acc e.1 e.2 h)

theorem mem_foldl_insertField (entries : List (String × JValue)) :
    ∀ acc g, g ∈ entries.foldl (fun a e => insertField a e.1 e.2) acc →
      g ∈ acc ∨ ∃ e ∈ entries, g.2 = e.2 := by
  induction entries with
  | nil => intro acc g h; left; simpa using h
  | cons e rest ih =>
    intro acc g h
    rcases ih (insertField acc e.1 e.2) g h with h2 | h2
    · rcases mem_insertField acc e.1 e.2 g h2 with h3 | h3
      · left; exact h3
      · right; exact ⟨e, by simp, by simp [h3]⟩
    · right
      obtain ⟨e2, he2, hv⟩ := h2
      exact ⟨e2, by simp [he2], hv⟩

theorem objOfEntries_nodup (entries : List (String × JValue)) :
    ((objOfEntries entries).map Prod.fst).Nodup :=
  foldl_insertField_nodup entries [] (by simp)

theorem mem_objOfEntries (entries : List (String × JValue)) (g : String × JValue)
    (h : g ∈ objOfEntries entries) : ∃ e ∈ entries, g.2 = e.2 := by
  rcases mem_foldl_insertField entries [] g h with h2 | h2
  · simp at h2
  · exact h2

theorem foldl_insertField_of_nodup (entries : List (String × JValue)) :
    ∀ acc, (((acc ++ entries).map Prod.fst)).Nodup →
      entries.foldl (fun a e => insertField a e.1 e.2) acc = acc ++ entries := by
  induction entries with
  | nil => intro acc _; simp
  | cons e rest ih =>
    intro acc h
    have hnot : e.1 ∉ acc.map Prod.fst := by
      have h2 := h
      rw [List.map_append] at h2
      have hd := List.disjoint_of_nodup_append h2
      intro hmem
      exact hd hmem (by simp)
    have hstep : insertField acc e.1 e.2 = acc ++ [e] := by
      rw [insertField_of_not_mem acc e.1 e.2 hnot]
    rw [List.foldl_cons, hstep, ih (acc ++ [e]) (by simpa using h)]
    simp

theorem objOfEntries_of_nodup (entries : List (String × JValue))
    (h : (entries.map Prod.fst).Nodup) : objOfEntries entries = entries := by
  have := foldl_insertField_of_nodup entries [] (by simpa using h)
  simpa [objOfEntries] using this

/-! ### Parser/whitespace infrastructure for the round-trip proof. -/

theorem skipWs_ws_mem (cs : List Char) : ∀ c, (skipWs cs).head? = some c → isWsChar c = false := by
  induction cs with
  | nil => intro c h; simp [skipWs] at h
  | cons c2 t ih =>
    intro c h
    by_cases hws : isWsChar c2
    · rw [show skipWs (c2 :: t) = skipWs t from by simp [skipWs, hws]] at h
      exact ih c h
    · rw [skipWs_cons_not_ws c2 t (by simpa using hws)] at h
      simp only [List.head?_cons, Option.some.injEq] at h
      rw [← h]
      simpa using hws

theorem skipWs_idem (cs : List Char) : skipWs (skipWs cs) = skipWs cs := by
  induction cs with
  | nil => rfl
  | cons c t ih =>
    by_cases hws : isWsChar c
    · rw [show skipWs (c :: t) = skipWs t from by simp [skipWs, hws]]
      exact ih
    · rw [skipWs_cons_not_ws c t (by simpa using hws),
        skipWs_cons_not_ws c t (by simpa using hws)]

theorem parseVal_congr_ws (fuel : Nat) (cs1 cs2 : List Char)
    (h : skipWs cs1 = skipWs cs2) : parseVal fuel cs1 = parseVal fuel cs2 := by
  cases fuel with
  | zero => rw [parseVal.eq_def, parseVal.eq_def]
  | succ f =>
    rw [parseVal.eq_def, parseVal.eq_def]
    simp only [h]

theorem parseItems_congr_ws (fuel : Nat) (cs1 cs2 : List Char)
    (h : skipWs cs1 = skipWs cs2) : parseItems fuel cs1 = parseItems fuel cs2 := by
  cases fuel with
  | zero => rw [parseItems.eq_def, parseItems.eq_def]
  | succ f =>
    rw [parseItems.eq_def, parseItems.eq_def]
    simp only [parseVal_congr_ws f cs1 cs2 h]

theorem parseFields_congr_ws (fuel : Nat) (cs1 cs2 : List Char)
    (h : skipWs cs1 = skipWs cs2) : parseFields fuel cs1 = parseFields fuel cs2 := by
  cases fuel with
  | zero => rw [parseFields.eq_def, parseFields.eq_def]
  | succ f =>
    rw [parseFields.eq_def, parseFields.eq_def]
    simp only [h]

theorem noDigitHead_cons (c : Char) (t : List Char) (h : isDigitChar c = false) :
    noDigitHead (c :: t) := by
  intro c2 h2
  simp only [List.head?_cons, Option.some.injEq] at h2
  rw [← h2]
  exact h

theorem noDigitHead_nil : noDigitHead ([] : List Char) := by
  intro c h
  simp at h

theorem digit_not_special (c : Char) (h : isDigitChar c = true) :
    isWsChar c = false ∧ c ≠ ']' := by
  constructor
  · cases hw : isWsChar c with
    | false => rfl
    | true =>
      simp only [isWsChar, Bool.or_eq_true, decide_eq_true_eq] at hw
      rcases hw with ((rfl | rfl) | rfl) | rfl <;> exact absurd h (by decide)
  · intro heq
    rw [heq] at h
    exact absurd h (by decide)

theorem intChars_head (n : Int) :
    ∃ c t, intChars n = c :: t ∧ (c = '-' ∨ isDigitChar c = true) := by
  obtain ⟨d, ds, hd⟩ : ∃ d ds, natChars n.natAbs = d :: ds := by
    cases hnc : natChars n.natAbs with
    | nil => exact absurd hnc (natChars_ne_nil _)
    | cons a b => exact ⟨a, b, rfl⟩
  have hdig : isDigitChar d = true := natChars_all_digits n.natAbs d (by rw [hd]; simp)
  by_cases hn : n < 0
  · exact ⟨'-', natChars n.natAbs, by simp [intChars, hn], Or.inl rfl⟩
  · exact ⟨d, ds, by simp [intChars, hn, hd], Or.inr hdig⟩

theorem stringifyAux_head (ind : Nat) (v : JValue) :
    ∃ c t, stringifyAux ind v = c :: t ∧ isWsChar c = false ∧ c ≠ ']' := by
  cases v with
  | null => exact ⟨'n', _, rfl, by decide, by decide⟩
  | bool b => cases b with
    | true => exact ⟨'t', _, rfl, by decide, by decide⟩
    | false => exact ⟨'f', _, rfl, by decide, by decide⟩
  | num n =>
    obtain ⟨c, t, hct, hc⟩ := intChars_head n
    refine ⟨c, t, ?_, ?_, ?_⟩
    · rw [show stringifyAux ind (.num n) = intChars n from rfl, hct]
    · rcases hc with rfl | hdig
      · decide
      · exact (digit_not_special c hdig).1
    · rcases hc with rfl | hdig
      · decide
      · exact (digit_not_special c hdig).2
  | str s => exact ⟨'"', _, rfl, by decide, by decide⟩
  | arr xs =>
    cases xs with
    | nil => exact ⟨'[', _, rfl, by decide, by decide⟩
    | cons x t =>
      exact ⟨'[', '\n' :: stringifyItems (ind + 2) x t ++ '\n' :: spaces ind ++ [']'],
        by rw [stringifyAux_arr_cons]; rfl, by decide, by decide⟩
  | obj fs =>
    cases fs with
    | nil => exact ⟨'\x7b', _, rfl, by decide, by decide⟩
    | cons g gs =>
      cases g with
      | mk k v2 =>
        exact ⟨'\x7b', '\n' :: stringifyFields (ind + 2) k v2 gs ++ '\n' :: spaces ind ++ ['\x7d'],
          by rw [stringifyAux_obj_cons]; rfl, by decide, by decide⟩

theorem stringifyItems_shape (ind : Nat) (x : JValue) (xs : List JValue) :
    ∃ T, stringifyItems ind x xs = spaces ind ++ (stringifyAux ind x ++ T) := by
  cases xs with
  | nil => exact ⟨[], by rw [stringifyItems_nil]; simp⟩
  | cons y ys =>
    exact ⟨',' :: '\n' :: stringifyItems ind y ys, by rw [stringifyItems_cons]; simp⟩

theorem parseVal_succ_lbracket (f : Nat) (rest2 : List Char) :
    parseVal (f + 1) ('[' :: rest2) =
      if (skipWs rest2).head? = some ']' then some (.arr [], (skipWs rest2).tail)
      else
        match parseItems f (skipWs rest2) with
        | some p => some (.arr p.1, p.2)
        | none => none := by
  rw [parseVal.eq_2, skipWs_cons_not_ws _ _ (by decide)]
  simp

theorem parseVal_succ_lbrace (f : Nat) (rest2 : List Char) :
    parseVal (f + 1) ('\x7b' :: rest2) =
      if (skipWs rest2).head? = some '\x7d' then some (.obj [], (skipWs rest2).tail)
      else
        match parseFields f (skipWs rest2) with
        | some p => some (.obj (objOfEntries p.1), p.2)
        | none => none := by
  rw [parseVal.eq_2, skipWs_cons_not_ws _ _ (by decide)]
  simp

theorem skipWs_space_cons (cs : List Char) : skipWs (' ' :: cs) = skipWs cs := by
  simp [skipWs, isWsChar]

theorem stringifyFields_shape (ind : Nat) (k : String) (v : JValue)
    (fs : List (String × JValue)) :
    ∃ T, stringifyFields ind k v fs =
      spaces ind ++ ('"' :: (escapeString k ++ '"' :: ':' :: ' ' :: stringifyAux ind v ++ T)) := by
  cases fs with
  | nil =>
    refine ⟨[], ?_⟩
    rw [stringifyFields_nil]
    simp [quoteString]
  | cons g gs =>
    cases g with
    | mk k2 v2 =>
      refine ⟨',' :: '\n' :: stringifyFields ind k2 v2 gs, ?_⟩
      rw [stringifyFields_cons]
      simp [quoteString]

theorem parseFields_succ_quote (f : Nat) (X : List Char) :
    parseFields (f + 1) ('"' :: X) =
      match parseStringBody [] X with
      | none => none
      | some kp =>
        if (skipWs kp.2).head? = some ':' then
          match parseVal f (skipWs kp.2).tail with
          | none => none
          | some vp =>
            if (skipWs vp.2).head? = some ',' then
              match parseFields f (skipWs vp.2).tail with
              | some p => some ((kp.1, vp.1) :: p.1, p.2)
              | none => none
            else if (skipWs vp.2).head? = some '\x7d' then
              some ([(kp.1, vp.1)], (skipWs vp.2).tail)
            else none
        else none := by
  rw [parseFields.eq_2, skipWs_cons_not_ws _ _ (by decide)]
  simp
theorem parse_stringify (N : Nat) :
    (∀ v ind rest fuel, sizeJ v ≤ N → wfJ v = true → noDigitHead rest → sizeJ v ≤ fuel →
      parseVal fuel (stringifyAux ind v ++ rest) = some (v, rest)) ∧
    (∀ x xs ind jnd rest fuel, sizeJ x + sizeJList xs ≤ N → wfJ x = true → wfJList xs = true →
      sizeJ x + sizeJList xs ≤ fuel →
      parseItems fuel (stringifyItems ind x xs ++ '\n' :: spaces jnd ++ ']' :: rest) =
        some (x :: xs, rest)) ∧
    (∀ k v fs ind jnd rest fuel, sizeJ v + sizeJFields fs ≤ N → wfJ v = true →
      wfJFields fs = true → sizeJ v + sizeJFields fs ≤ fuel →
      parseFields fuel (stringifyFields ind k v fs ++ '\n' :: spaces jnd ++ '\x7d' :: rest) =
        some ((k, v) :: fs, rest)) := by
  induction N with
  | zero =>
    refine ⟨fun v _ _ _ hN _ _ _ => absurd hN (by have := sizeJ_pos v; omega),
      fun x _ _ _ _ _ hN _ _ _ => absurd hN (by have := sizeJ_pos x; omega),
      fun _ v _ _ _ _ _ hN _ _ => absurd hN (by have := sizeJ_pos v; omega)⟩
  | succ N ih =>
    refine ⟨?_, ?_, ?_⟩
    · -- parseVal
      intro v ind rest fuel hN hwf hrest hfuel
      cases fuel with
      | zero => exact absurd hfuel (by have := sizeJ_pos v; omega)
      | succ f =>
        cases v with
        | null =>
          rw [show stringifyAux ind JValue.null = ['n', 'u', 'l', 'l'] from rfl]
          rw [parseVal.eq_2]
          rw [show (['n', 'u', 'l', 'l'] : List Char) ++ rest = 'n' :: 'u' :: 'l' :: 'l' :: rest from rfl]
          rw [skipWs_cons_not_ws _ _ (by decide)]
          simp
        | bool b =>
          cases b with
          | true =>
            rw [show stringifyAux ind (JValue.bool true) = ['t', 'r', 'u', 'e'] from rfl]
            rw [parseVal.eq_2]
            rw [show (['t', 'r', 'u', 'e'] : List Char) ++ rest = 't' :: 'r' :: 'u' :: 'e' :: rest from rfl]
            rw [skipWs_cons_not_ws _ _ (by decide)]
            simp
          | false =>
            rw [show stringifyAux ind (JValue.bool false) = ['f', 'a', 'l', 's', 'e'] from rfl]
            rw [parseVal.eq_2]
            rw [show (['f', 'a', 'l', 's', 'e'] : List Char) ++ rest = 'f' :: 'a' :: 'l' :: 's' :: 'e' :: rest from rfl]
            rw [skipWs_cons_not_ws _ _ (by decide)]
            simp
        | num n =>
          rw [show stringifyAux ind (JValue.num n) = intChars n from rfl]
          obtain ⟨c, t, hct, hc⟩ := intChars_head n
          have hprops : isWsChar c = false ∧ ¬c = 'n' ∧ ¬c = 't' ∧ ¬c = 'f' ∧ ¬c = '"' ∧
              ¬c = '[' ∧ ¬c = '\x7b' ∧ (c = '-' || isDigitChar c) = true := by
            rcases hc with rfl | hdig
            · exact ⟨by decide, by decide, by decide, by decide, by decide, by decide,
                by decide, by decide⟩
            · refine ⟨(digit_not_special c hdig).1, ?_, ?_, ?_, ?_, ?_, ?_, by simp [hdig]⟩
              all_goals intro heq; rw [heq] at hdig; exact absurd hdig (by decide)
          rw [hct, List.cons_append, parseVal.eq_2]
          rw [skipWs_cons_not_ws _ _ hprops.1]
          simp only [if_neg hprops.2.1, if_neg hprops.2.2.1, if_neg hprops.2.2.2.1,
            if_neg hprops.2.2.2.2.1, if_neg hprops.2.2.2.2.2.1, if_neg hprops.2.2.2.2.2.2.1,
            hprops.2.2.2.2.2.2.2, if_pos]
          rw [← List.cons_append, ← hct, parseNumber_intChars n rest hrest]
        | str s =>
          rw [show stringifyAux ind (JValue.str s) = '"' :: escapeString s ++ ['"'] from rfl]
          rw [show ('"' :: escapeString s ++ ['"']) ++ rest =
            '"' :: (escapeString s ++ '"' :: rest) from by simp]
          rw [parseVal.eq_2, skipWs_cons_not_ws _ _ (by decide)]
          have hbody := parseStringBody_flatMap s.data [] rest
          simp only [List.reverse_nil, List.nil_append] at hbody
          rw [show (escapeString s : List Char) = s.data.flatMap escapeChar from rfl]
          simp only [hbody, stringMk_data]
          simp
        | arr xs =>
          cases xs with
          | nil =>
            rw [show stringifyAux ind (JValue.arr []) = ['[', ']'] from rfl]
            rw [show (['[', ']'] : List Char) ++ rest = '[' :: ']' :: rest from rfl]
            rw [parseVal_succ_lbracket, skipWs_cons_not_ws _ _ (by decide)]
            simp
          | cons x xs =>
            have hsz : sizeJ (JValue.arr (x :: xs)) = 2 + sizeJ x + sizeJList xs := by
              simp [sizeJ, sizeJList]
              omega
            have hwf2 : wfJ x = true ∧ wfJList xs = true := by
              have h2 := hwf
              simp only [wfJ, wfJList, Bool.and_eq_true] at h2
              exact h2
            rw [stringifyAux_arr_cons]
            have hA : ('[' :: '\n' :: stringifyItems (ind + 2) x xs ++
                '\n' :: spaces ind ++ [']']) ++ rest =
                '[' :: '\n' :: (stringifyItems (ind + 2) x xs ++
                  '\n' :: spaces ind ++ ']' :: rest) := by
              simp
            rw [hA, parseVal_succ_lbracket]
            obtain ⟨T, hT⟩ := stringifyItems_shape (ind + 2) x xs
            obtain ⟨c0, t0, hc0, hc0ws, hc0br⟩ := stringifyAux_head (ind + 2) x
            have hskipA : skipWs (stringifyItems (ind + 2) x xs ++
                '\n' :: spaces ind ++ ']' :: rest) =
                stringifyAux (ind + 2) x ++ (T ++ '\n' :: spaces ind ++ ']' :: rest) := by
              rw [hT]
              rw [show (spaces (ind + 2) ++ (stringifyAux (ind + 2) x ++ T)) ++
                  '\n' :: spaces ind ++ ']' :: rest =
                  spaces (ind + 2) ++ (stringifyAux (ind + 2) x ++
                    (T ++ '\n' :: spaces ind ++ ']' :: rest)) from by simp]
              rw [skipWs_spaces_append, hc0, List.cons_append,
                skipWs_cons_not_ws _ _ hc0ws, ← List.cons_append, ← hc0]
            rw [skipWs_newline, hskipA]
            rw [hc0, List.cons_append, List.head?_cons]
            rw [if_neg (by simp [hc0br])]
            have hitems : parseItems f (c0 :: (t0 ++ (T ++ '\n' :: spaces ind ++ ']' :: rest))) =
                parseItems f (stringifyItems (ind + 2) x xs ++
                  '\n' :: spaces ind ++ ']' :: rest) := by
              refine parseItems_congr_ws f _ _ ?_
              rw [hskipA, hc0, List.cons_append]
              rw [skipWs_cons_not_ws _ _ hc0ws]
            rw [hitems, ih.2.1 x xs (ind + 2) ind rest f (by omega) hwf2.1 hwf2.2 (by omega)]
        | obj fs =>
          cases fs with
          | nil =>
            rw [show stringifyAux ind (JValue.obj []) = ['\x7b', '\x7d'] from rfl]
            rw [show (['\x7b', '\x7d'] : List Char) ++ rest = '\x7b' :: '\x7d' :: rest from rfl]
            rw [parseVal_succ_lbrace, skipWs_cons_not_ws _ _ (by decide)]
            simp
          | cons g gs =>
            cases g with
            | mk k v2 =>
              have hsz : sizeJ (JValue.obj ((k, v2) :: gs)) = 2 + sizeJ v2 + sizeJFields gs := by
                simp [sizeJ, sizeJFields]
                omega
              have hwf2 : distinctKeys ((k, v2) :: gs) = true ∧ wfJ v2 = true ∧
                  wfJFields gs = true := by
                have h2 := hwf
                simp only [wfJ, wfJFields, Bool.and_eq_true] at h2
                exact ⟨h2.1, h2.2.1, h2.2.2⟩
              rw [stringifyAux_obj_cons]
              have hA : ('\x7b' :: '\n' :: stringifyFields (ind + 2) k v2 gs ++
                  '\n' :: spaces ind ++ ['\x7d']) ++ rest =
                  '\x7b' :: '\n' :: (stringifyFields (ind + 2) k v2 gs ++
                    '\n' :: spaces ind ++ '\x7d' :: rest) := by
                simp
              rw [hA, parseVal_succ_lbrace]
              obtain ⟨T, hT⟩ := stringifyFields_shape (ind + 2) k v2 gs
              have hskipA : skipWs (stringifyFields (ind + 2) k v2 gs ++
                  '\n' :: spaces ind ++ '\x7d' :: rest) =
                  '"' :: ((escapeString k ++ '"' :: ':' :: ' ' :: stringifyAux (ind + 2) v2 ++ T) ++
                    ('\n' :: spaces ind ++ '\x7d' :: rest)) := by
                rw [hT]
                rw [show (spaces (ind + 2) ++
                    ('"' :: (escapeString k ++ '"' :: ':' :: ' ' :: stringifyAux (ind + 2) v2 ++ T))) ++
                    '\n' :: spaces ind ++ '\x7d' :: rest =
                    spaces (ind + 2) ++
                    ('"' :: ((escapeString k ++ '"' :: ':' :: ' ' :: stringifyAux (ind + 2) v2 ++ T) ++
                      '\n' :: spaces ind ++ '\x7d' :: rest)) from by simp]
                rw [skipWs_spaces_append, skipWs_cons_not_ws _ _ (by decide)]
                simp
              rw [skipWs_newline, hskipA]
              rw [List.head?_cons]
              rw [if_neg (by decide)]
              have hflds : parseFields f ('"' :: ((escapeString k ++ '"' :: ':' :: ' ' ::
                  stringifyAux (ind + 2) v2 ++ T) ++ ('\n' :: spaces ind ++ '\x7d' :: rest))) =
                  parseFields f (stringifyFields (ind + 2) k v2 gs ++
                    '\n' :: spaces ind ++ '\x7d' :: rest) := by
                refine parseFields_congr_ws f _ _ ?_
                rw [hskipA]
                rw [skipWs_cons_not_ws _ _ (by decide)]
              rw [hflds, ih.2.2 k v2 gs (ind + 2) ind rest f (by omega) hwf2.2.1 hwf2.2.2 (by omega)]
              have hnodup : (((k, v2) :: gs).map Prod.fst).Nodup :=
                (distinctKeys_iff _).mp hwf2.1
              rw [show (match (some ((k, v2) :: gs, rest) : Option _) with
                  | some p => some (JValue.obj (objOfEntries p.1), p.2)
                  | none => none) =
                  some (JValue.obj (objOfEntries ((k, v2) :: gs)), rest) from rfl]
              rw [objOfEntries_of_nodup _ hnodup]
    · -- parseItems
      intro x xs ind jnd rest fuel hN hwfx hwfxs hfuel
      have hx := sizeJ_pos x
      have hxs := sizeJList_pos xs
      cases fuel with
      | zero => exact absurd hfuel (by omega)
      | succ f =>
        rw [parseItems.eq_2]
        cases xs with
        | nil =>
          rw [stringifyItems_nil]
          rw [show (spaces ind ++ stringifyAux ind x) ++ '\n' :: spaces jnd ++ ']' :: rest =
              spaces ind ++ (stringifyAux ind x ++ ('\n' :: (spaces jnd ++ ']' :: rest)))
              from by simp]
          rw [parseVal_congr_ws f _ _ (skipWs_spaces_append ind _)]
          rw [ih.1 x ind ('\n' :: (spaces jnd ++ ']' :: rest)) f (by omega) hwfx
            (noDigitHead_cons _ _ (by decide)) (by omega)]
          have hr1 : skipWs ('\n' :: (spaces jnd ++ ']' :: rest)) = ']' :: rest := by
            rw [skipWs_newline, skipWs_spaces_append, skipWs_cons_not_ws _ _ (by decide)]
          simp [hr1]
        | cons y ys =>
          have hsl : sizeJList (y :: ys) = 1 + sizeJ y + sizeJList ys := by simp [sizeJList]
          have hy := sizeJ_pos y
          have hys := sizeJList_pos ys
          have hwf2 : wfJ y = true ∧ wfJList ys = true := by
            have h2 := hwfxs
            simp only [wfJList, Bool.and_eq_true] at h2
            exact h2
          rw [stringifyItems_cons]
          rw [show (spaces ind ++ stringifyAux ind x ++ ',' :: '\n' :: stringifyItems ind y ys) ++
              '\n' :: spaces jnd ++ ']' :: rest =
              spaces ind ++ (stringifyAux ind x ++ (',' :: ('\n' ::
                (stringifyItems ind y ys ++ '\n' :: spaces jnd ++ ']' :: rest))))
              from by simp]
          rw [parseVal_congr_ws f _ _ (skipWs_spaces_append ind _)]
          rw [ih.1 x ind (',' :: ('\n' ::
            (stringifyItems ind y ys ++ '\n' :: spaces jnd ++ ']' :: rest))) f
            (by omega) hwfx (noDigitHead_cons _ _ (by decide)) (by omega)]
          have hr1 : skipWs (',' :: '\n' ::
              (stringifyItems ind y ys ++ '\n' :: (spaces jnd ++ ']' :: rest))) =
              ',' :: '\n' :: (stringifyItems ind y ys ++ '\n' :: (spaces jnd ++ ']' :: rest)) :=
            skipWs_cons_not_ws _ _ (by decide)
          have hrec : parseItems f ('\n' ::
              (stringifyItems ind y ys ++ '\n' :: (spaces jnd ++ ']' :: rest))) =
              some (y :: ys, rest) := by
            rw [parseItems_congr_ws f _ _ (skipWs_newline _)]
            rw [show stringifyItems ind y ys ++ '\n' :: (spaces jnd ++ ']' :: rest) =
                stringifyItems ind y ys ++ '\n' :: spaces jnd ++ ']' :: rest from by simp]
            exact ih.2.1 y ys ind jnd rest f (by omega) hwf2.1 hwf2.2 (by omega)
          simp [hr1, hrec]
    · -- parseFields
      intro k v fs ind jnd rest fuel hN hwfv hwffs hfuel
      have hv := sizeJ_pos v
      have hfs := sizeJFields_pos fs
      cases fuel with
      | zero => exact absurd hfuel (by omega)
      | succ f =>
        cases fs with
        | nil =>
          rw [stringifyFields_nil]
          rw [show (spaces ind ++ quoteString k ++ ':' :: ' ' :: stringifyAux ind v) ++
              '\n' :: spaces jnd ++ '\x7d' :: rest =
              spaces ind ++ ('"' :: (escapeString k ++ '"' ::
                (':' :: (' ' :: (stringifyAux ind v ++
                  '\n' :: (spaces jnd ++ '\x7d' :: rest)))))) from by simp [quoteString]]
          rw [parseFields_congr_ws (f + 1) _ _ (skipWs_spaces_append ind _)]
          rw [parseFields_succ_quote]
          simp only [escapeString]
          have hkey := parseStringBody_flatMap k.data []
            (':' :: (' ' :: (stringifyAux ind v ++ '\n' :: (spaces jnd ++ '\x7d' :: rest))))
          simp only [List.reverse_nil, List.nil_append, stringMk_data] at hkey
          rw [hkey]
          have hws1 : skipWs (':' :: (' ' :: (stringifyAux ind v ++
              '\n' :: (spaces jnd ++ '\x7d' :: rest)))) =
              ':' :: (' ' :: (stringifyAux ind v ++ '\n' :: (spaces jnd ++ '\x7d' :: rest))) :=
            skipWs_cons_not_ws _ _ (by decide)
          have hval : parseVal f (' ' :: (stringifyAux ind v ++
              '\n' :: (spaces jnd ++ '\x7d' :: rest))) =
              some (v, '\n' :: (spaces jnd ++ '\x7d' :: rest)) := by
            rw [parseVal_congr_ws f _ _ (skipWs_space_cons _)]
            exact ih.1 v ind _ f (by omega) hwfv (noDigitHead_cons _ _ (by decide)) (by omega)
          have hr2 : skipWs ('\n' :: (spaces jnd ++ '\x7d' :: rest)) = '\x7d' :: rest := by
            rw [skipWs_newline, skipWs_spaces_append, skipWs_cons_not_ws _ _ (by decide)]
          simp [hws1, hval, hr2]
        | cons g gs =>
          cases g with
          | mk k2 v2 =>
            have hsf : sizeJFields ((k2, v2) :: gs) = 1 + sizeJ v2 + sizeJFields gs := by
              simp [sizeJFields]
            have hv2 := sizeJ_pos v2
            have hgs := sizeJFields_pos gs
            have hwf2 : wfJ v2 = true ∧ wfJFields gs = true := by
              have h2 := hwffs
              simp only [wfJFields, Bool.and_eq_true] at h2
              exact h2
            rw [stringifyFields_cons]
            rw [show (spaces ind ++ quoteString k ++ ':' :: ' ' :: stringifyAux ind v ++
                ',' :: '\n' :: stringifyFields ind k2 v2 gs) ++
                '\n' :: spaces jnd ++ '\x7d' :: rest =
                spaces ind ++ ('"' :: (escapeString k ++ '"' ::
                  (':' :: (' ' :: (stringifyAux ind v ++
                    ',' :: ('\n' :: (stringifyFields ind k2 v2 gs ++
                      '\n' :: (spaces jnd ++ '\x7d' :: rest))))))))
                from by simp [quoteString]]
            rw [parseFields_congr_ws (f + 1) _ _ (skipWs_spaces_append ind _)]
            rw [parseFields_succ_quote]
            simp only [escapeString]
            have hkey := parseStringBody_flatMap k.data []
              (':' :: (' ' :: (stringifyAux ind v ++ ',' :: ('\n' ::
                (stringifyFields ind k2 v2 gs ++ '\n' :: (spaces jnd ++ '\x7d' :: rest))))))
            simp only [List.reverse_nil, List.nil_append, stringMk_data] at hkey
            rw [hkey]
            have hws1 : skipWs (':' :: (' ' :: (stringifyAux ind v ++ ',' :: ('\n' ::
                (stringifyFields ind k2 v2 gs ++ '\n' :: (spaces jnd ++ '\x7d' :: rest)))))) =
                ':' :: (' ' :: (stringifyAux ind v ++ ',' :: ('\n' ::
                  (stringifyFields ind k2 v2 gs ++ '\n' :: (spaces jnd ++ '\x7d' :: rest))))) :=
              skipWs_cons_not_ws _ _ (by decide)
            have hval : parseVal f (' ' :: (stringifyAux ind v ++ ',' :: ('\n' ::
                (stringifyFields ind k2 v2 gs ++ '\n' :: (spaces jnd ++ '\x7d' :: rest))))) =
                some (v, ',' :: ('\n' :: (stringifyFields ind k2 v2 gs ++
                  '\n' :: (spaces jnd ++ '\x7d' :: rest)))) := by
              rw [parseVal_congr_ws f _ _ (skipWs_space_cons _)]
              exact ih.1 v ind _ f (by omega) hwfv (noDigitHead_cons _ _ (by decide)) (by omega)
            have hr2 : skipWs (',' :: ('\n' :: (stringifyFields ind k2 v2 gs ++
                '\n' :: (spaces jnd ++ '\x7d' :: rest)))) =
                ',' :: ('\n' :: (stringifyFields ind k2 v2 gs ++
                  '\n' :: (spaces jnd ++ '\x7d' :: rest))) :=
              skipWs_cons_not_ws _ _ (by decide)
            have hrec : parseFields f ('\n' :: (stringifyFields ind k2 v2 gs ++
                '\n' :: (spaces jnd ++ '\x7d' :: rest))) =
                some ((k2, v2) :: gs, rest) := by
              rw [parseFields_congr_ws f _ _ (skipWs_newline _)]
              rw [show stringifyFields ind k2 v2 gs ++ '\n' :: (spaces jnd ++ '\x7d' :: rest) =
                  stringifyFields ind k2 v2 gs ++ '\n' :: spaces jnd ++ '\x7d' :: rest
                  from by simp]
              exact ih.2.2 k2 v2 gs ind jnd rest f (by omega) hwf2.1 hwf2.2 (by omega)
            simp [hws1, hval, hr2, hrec]

theorem stringify_length (N : Nat) :
    (∀ v ind, sizeJ v ≤ N → sizeJ v ≤ (stringifyAux ind v).length) ∧
    (∀ x xs ind, sizeJ x + sizeJList xs ≤ N → 1 ≤ ind →
      sizeJ x + sizeJList xs ≤ (stringifyItems ind x xs).length) ∧
    (∀ k v fs ind, sizeJ v + sizeJFields fs ≤ N → 1 ≤ ind →
      sizeJ v + sizeJFields fs ≤ (stringifyFields ind k v fs).length) := by
  induction N with
  | zero =>
    refine ⟨fun v _ hN => absurd hN (by have := sizeJ_pos v; omega),
      fun x xs _ hN => absurd hN (by have := sizeJ_pos x; have := sizeJList_pos xs; omega),
      fun _ v fs _ hN => absurd hN (by have := sizeJ_pos v; have := sizeJFields_pos fs; omega)⟩
  | succ N ih =>
    refine ⟨?_, ?_, ?_⟩
    · intro v ind hN
      cases v with
      | null =>
        rw [show stringifyAux ind JValue.null = ['n', 'u', 'l', 'l'] from rfl]
        simp [sizeJ]
      | bool b =>
        cases b with
        | true =>
          rw [show stringifyAux ind (JValue.bool true) = ['t', 'r', 'u', 'e'] from rfl]
          simp [sizeJ]
        | false =>
          rw [show stringifyAux ind (JValue.bool false) = ['f', 'a', 'l', 's', 'e'] from rfl]
          simp [sizeJ]
      | num n =>
        have h1 : (intChars n).length ≥ 1 := by
          by_cases hn : n < 0
          · simp [intChars, hn]
          · rw [show intChars n = natChars n.natAbs from by simp [intChars, hn]]
            cases hnc : natChars n.natAbs with
            | nil => exact absurd hnc (natChars_ne_nil _)
            | cons a b => simp
        have h2 : stringifyAux ind (.num n) = intChars n := rfl
        rw [h2]
        simp [sizeJ]
        omega
      | str s =>
        have h2 : stringifyAux ind (.str s) = '"' :: escapeString s ++ ['"'] := rfl
        rw [h2]
        simp [sizeJ]
      | arr xs =>
        cases xs with
        | nil =>
          rw [show stringifyAux ind (JValue.arr []) = ['[', ']'] from rfl]
          simp [sizeJ, sizeJList]
        | cons x t =>
          have hsz : sizeJ (JValue.arr (x :: t)) = 2 + sizeJ x + sizeJList t := by
            simp [sizeJ, sizeJList]
            omega
          rw [stringifyAux_arr_cons]
          have hit := ih.2.1 x t (ind + 2) (by omega) (by omega)
          simp only [List.length_cons, List.length_append, List.length_singleton]
          omega
      | obj fs =>
        cases fs with
        | nil =>
          rw [show stringifyAux ind (JValue.obj []) = ['\x7b', '\x7d'] from rfl]
          simp [sizeJ, sizeJFields]
        | cons g gs =>
          cases g with
          | mk k v2 =>
            have hsz : sizeJ (JValue.obj ((k, v2) :: gs)) = 2 + sizeJ v2 + sizeJFields gs := by
              simp [sizeJ, sizeJFields]
              omega
            rw [stringifyAux_obj_cons]
            have hit := ih.2.2 k v2 gs (ind + 2) (by omega) (by omega)
            simp only [List.length_cons, List.length_append, List.length_singleton]
            omega
    · intro x xs ind hN hind
      cases xs with
      | nil =>
        rw [stringifyItems_nil]
        have h1 := ih.1 x ind (by have := sizeJList_pos ([] : List JValue); omega)
        have h2 : sizeJList ([] : List JValue) = 1 := by simp [sizeJList]
        simp only [List.length_append, spaces, List.length_replicate]
        omega
      | cons y ys =>
        rw [stringifyItems_cons]
        have hsl : sizeJList (y :: ys) = 1 + sizeJ y + sizeJList ys := by simp [sizeJList]
        have hy := sizeJ_pos y
        have hys := sizeJList_pos ys
        have h1 := ih.1 x ind (by omega)
        have h2 := ih.2.1 y ys ind (by omega) hind
        simp only [List.length_append, List.length_cons, spaces, List.length_replicate]
        omega
    · intro k v fs ind hN hind
      cases fs with
      | nil =>
        rw [stringifyFields_nil]
        have h1 := ih.1 v ind (by have := sizeJFields_pos ([] : List (String × JValue)); omega)
        have h2 : sizeJFields ([] : List (String × JValue)) = 1 := by simp [sizeJFields]
        simp only [List.length_append, List.length_cons, spaces, List.length_replicate]
        omega
      | cons g gs =>
        cases g with
        | mk k2 v2 =>
          rw [stringifyFields_cons]
          have hsf : sizeJFields ((k2, v2) :: gs) = 1 + sizeJ v2 + sizeJFields gs := by
            simp [sizeJFields]
          have hv2 := sizeJ_pos v2
          have hgs := sizeJFields_pos gs
          have h1 := ih.1 v ind (by omega)
          have h2 := ih.2.2 k2 v2 gs ind (by omega) hind
          simp only [List.length_append, List.length_cons, spaces, List.length_replicate]
          omega

/-- A serialized well-formed value re-parses to itself: `JSON.parse` inverts
`JSON.stringify(·, null, 2)`. -/
theorem parseJson_stringify (v : JValue) (hwf : wfJ v = true) :
    parseJson (jsonStringify v) = some v := by
  have hlen : sizeJ v ≤ (stringifyAux 0 v).length :=
    (stringify_length (sizeJ v)).1 v 0 (le_refl _)
  have hmain := (parse_stringify (sizeJ v)).1 v 0 []
    ((String.mk (stringifyAux 0 v)).length + 1) (le_refl _) hwf noDigitHead_nil
    (by
      have : (String.mk (stringifyAux 0 v)).length = (stringifyAux 0 v).length := rfl
      omega)
  rw [List.append_nil] at hmain
  unfold parseJson jsonStringify
  rw [show (String.mk (stringifyAux 0 v)).data = stringifyAux 0 v from rfl]
  rw [hmain]
  simp [skipWs]

/-! ### The path update preserves well-formedness. -/

theorem lookupField_some_mem (fs : List (String × JValue)) (k : String) (v : JValue)
    (h : lookupField fs k = some v) : (k, v) ∈ fs := by
  induction fs with
  | nil => simp [lookupField] at h
  | cons g gs ih =>
    cases g with
    | mk k2 v2 =>
      by_cases hk : k2 = k
      · rw [show lookupField ((k2, v2) :: gs) k = some v2 from by simp [lookupField, hk]] at h
        simp only [Option.some.injEq] at h
        rw [← h, ← hk]
        exact List.mem_cons_self _ _
      · rw [show lookupField ((k2, v2) :: gs) k = lookupField gs k from by
          simp [lookupField, hk]] at h
        exact List.mem_cons_of_mem _ (ih h)

theorem wfJList_set (xs : List JValue) (n : Nat) (v : JValue)
    (h : wfJList xs = true) (hv : wfJ v = true) : wfJList (xs.set n v) = true := by
  rw [wfJList_iff] at h ⊢
  intro x hx
  rcases List.mem_or_eq_of_mem_set hx with h2 | h2
  · exact h x h2
  · rw [h2]
    exact hv

theorem wfJList_padSet (xs : List JValue) (n : Nat) (v : JValue)
    (h : wfJList xs = true) (hv : wfJ v = true) : wfJList (padSet xs n v) = true := by
  unfold padSet
  split_ifs with h1
  · exact wfJList_set xs n v h hv
  · rw [wfJList_iff] at h ⊢
    intro x hx
    simp only [List.append_assoc, List.mem_append, List.mem_replicate,
      List.mem_singleton] at hx
    rcases hx with hx | ⟨-, rfl⟩ | rfl
    · exact h x hx
    · rfl
    · exact hv

theorem wfJList_resizeTo (xs : List JValue) (m : Nat) (h : wfJList xs = true) :
    wfJList (resizeTo xs m) = true := by
  unfold resizeTo
  split_ifs with h1
  · rw [wfJList_iff] at h ⊢
    intro x hx
    exact h x (List.mem_of_mem_take hx)
  · rw [wfJList_iff] at h ⊢
    intro x hx
    simp only [List.mem_append, List.mem_replicate] at hx
    rcases hx with hx | ⟨-, rfl⟩
    · exact h x hx
    · rfl

theorem insertField_wf (fs : List (String × JValue)) (k : String) (v : JValue)
    (hfs : wfJ (.obj fs) = true) (hv : wfJ v = true) :
    wfJ (.obj (insertField fs k v)) = true := by
  simp only [wfJ, Bool.and_eq_true] at hfs ⊢
  obtain ⟨hd, hf⟩ := hfs
  constructor
  · rw [distinctKeys_iff] at hd ⊢
    exact nodup_insertField fs k v hd
  · rw [wfJFields_iff] at hf ⊢
    intro g hg
    rcases mem_insertField fs k v g hg with h2 | h2
    · exact hf g h2
    · rw [h2]
      exact hv

theorem freshContainer_wf (k : PathSeg) : wfJ (freshContainer k) = true := by
  unfold freshContainer
  split_ifs <;> rfl

theorem setSeg_wf (cur : JValue) (k : PathSeg) (v res : JValue)
    (hw : wfJ cur = true) (hv : wfJ v = true) (h : setSeg cur k v = .ok res) :
    wfJ res = true := by
  cases cur with
  | null => simp [setSeg] at h
  | bool b => simp [setSeg] at h
  | num n => simp [setSeg] at h
  | str s => simp [setSeg] at h
  | obj fs =>
    rw [show setSeg (.obj fs) k v = .ok (.obj (insertField fs (segKey k) v)) from rfl] at h
    simp only [Except.ok.injEq] at h
    rw [← h]
    exact insertField_wf fs (segKey k) v hw hv
  | arr xs =>
    have hxs : wfJList xs = true := hw
    cases k with
    | num n =>
      rw [show setSeg (.arr xs) (.num n) v = .ok (.arr (padSet xs n v)) from rfl] at h
      simp only [Except.ok.injEq] at h
      rw [← h]
      exact wfJList_padSet xs n v hxs hv
    | str s =>
      cases hc : canonIndex? s with
      | some n =>
        simp only [setSeg, hc] at h
        simp only [Except.ok.injEq] at h
        rw [← h]
        exact wfJList_padSet xs n v hxs hv
      | none =>
        by_cases hl : s = "length"
        · subst hl
          cases v with
          | num m =>
            by_cases hm : (0 : Int) ≤ m
            · simp [setSeg, hc, hm] at h
              rw [← h]
              exact wfJList_resizeTo xs m.toNat hxs
            · simp [setSeg, hc, hm] at h
          | null => simp [setSeg, hc] at h
          | bool b => simp [setSeg, hc] at h
          | str s2 => simp [setSeg, hc] at h
          | arr ys => simp [setSeg, hc] at h
          | obj gs => simp [setSeg, hc] at h
        · simp only [setSeg, hc, if_neg hl, Except.ok.injEq] at h
          rw [← h]
          exact hxs

theorem setPath_wf : ∀ (path : List PathSeg) (cur v res : JValue),
    wfJ cur = true → wfJ v = true → setPath cur path v = .ok res → wfJ res = true := by
  intro path
  induction path with
  | nil =>
    intro cur v res hw hv h
    simp only [setPath, Except.ok.injEq] at h
    rw [← h]
    exact hw
  | cons k ks ih =>
    cases ks with
    | nil =>
      intro cur v res hw hv h
      rw [show setPath cur [k] v = setSeg cur k v from by simp [setPath]] at h
      exact setSeg_wf cur k v res hw hv h
    | cons k2 rest =>
      intro cur v res hw hv h
      cases cur with
      | null => simp [setPath] at h
      | bool b => simp [setPath] at h
      | num n => simp [setPath] at h
      | str s => simp [setPath] at h
      | obj fs =>
        have hf : wfJFields fs = true := by
          have h2 := hw
          simp only [wfJ, Bool.and_eq_true] at h2
          exact h2.2
        cases hlk : lookupField fs (segKey k) with
        | some child =>
          rw [show setPath (.obj fs) (k :: k2 :: rest) v =
            (match setPath child (k2 :: rest) v with
             | .ok child2 => .ok (.obj (insertField fs (segKey k) child2))
             | .error e => .error e) from by simp [setPath, hlk]] at h
          cases hsp : setPath child (k2 :: rest) v with
          | ok child2 =>
            rw [hsp] at h
            simp only [Except.ok.injEq] at h
            rw [← h]
            have hchild : wfJ child = true :=
              (wfJFields_iff fs).mp hf _ (lookupField_some_mem fs (segKey k) child hlk)
            exact insertField_wf fs (segKey k) child2 hw (ih child v child2 hchild hv hsp)
          | error e =>
            rw [hsp] at h
            cases h
        | none =>
          rw [show setPath (.obj fs) (k :: k2 :: rest) v =
            (match setPath (freshContainer k2) (k2 :: rest) v with
             | .ok child2 => .ok (.obj (insertField fs (segKey k) child2))
             | .error e => .error e) from by simp [setPath, hlk]] at h
          cases hsp : setPath (freshContainer k2) (k2 :: rest) v with
          | ok child2 =>
            rw [hsp] at h
            simp only [Except.ok.injEq] at h
            rw [← h]
            exact insertField_wf fs (segKey k) child2 hw
              (ih (freshContainer k2) v child2 (freshContainer_wf k2) hv hsp)
          | error e =>
            rw [hsp] at h
            cases h
      | arr xs =>
        have hxs : wfJList xs = true := hw
        cases k with
        | num n =>
          by_cases hn : n < xs.length
          · rw [show setPath (.arr xs) (.num n :: k2 :: rest) v =
              (match setPath (xs.get ⟨n, hn⟩) (k2 :: rest) v with
               | .ok child2 => .ok (.arr (xs.set n child2))
               | .error e => .error e) from by simp [setPath, hn]] at h
            cases hsp : setPath (xs.get ⟨n, hn⟩) (k2 :: rest) v with
            | ok child2 =>
              rw [hsp] at h
              simp only [Except.ok.injEq] at h
              rw [← h]
              have hchild : wfJ (xs.get ⟨n, hn⟩) = true :=
                (wfJList_iff xs).mp hxs _ (xs.get_mem _ _)
              exact wfJList_set xs n child2 hxs (ih _ v child2 hchild hv hsp)
            | error e =>
              rw [hsp] at h
              cases h
          · rw [show setPath (.arr xs) (.num n :: k2 :: rest) v =
              (match setPath (freshContainer k2) (k2 :: rest) v with
               | .ok child2 => .ok (.arr (padSet xs n child2))
               | .error e => .error e) from by simp [setPath, hn]] at h
            cases hsp : setPath (freshContainer k2) (k2 :: rest) v with
            | ok child2 =>
              rw [hsp] at h
              simp only [Except.ok.injEq] at h
              rw [← h]
              exact wfJList_padSet xs n child2 hxs
                (ih (freshContainer k2) v child2 (freshContainer_wf k2) hv hsp)
            | error e =>
              rw [hsp] at h
              cases h
        | str s =>
          cases hc : canonIndex? s with
          | some n =>
            by_cases hn : n < xs.length
            · rw [show setPath (.arr xs) (.str s :: k2 :: rest) v =
                (match setPath (xs.get ⟨n, hn⟩) (k2 :: rest) v with
                 | .ok child2 => .ok (.arr (xs.set n child2))
                 | .error e => .error e) from by simp [setPath, hc, hn]] at h
              cases hsp : setPath (xs.get ⟨n, hn⟩) (k2 :: rest) v with
              | ok child2 =>
                rw [hsp] at h
                simp only [Except.ok.injEq] at h
                rw [← h]
                have hchild : wfJ (xs.get ⟨n, hn⟩) = true :=
                  (wfJList_iff xs).mp hxs _ (xs.get_mem _ _)
                exact wfJList_set xs n child2 hxs (ih _ v child2 hchild hv hsp)
              | error e =>
                rw [hsp] at h
                cases h
            · rw [show setPath (.arr xs) (.str s :: k2 :: rest) v =
                (match setPath (freshContainer k2) (k2 :: rest) v with
                 | .ok child2 => .ok (.arr (padSet xs n child2))
                 | .error e => .error e) from by simp [setPath, hc, hn]] at h
              cases hsp : setPath (freshContainer k2) (k2 :: rest) v with
              | ok child2 =>
                rw [hsp] at h
                simp only [Except.ok.injEq] at h
                rw [← h]
                exact wfJList_padSet xs n child2 hxs
                  (ih (freshContainer k2) v child2 (freshContainer_wf k2) hv hsp)
              | error e =>
                rw [hsp] at h
                cases h
          | none =>
            by_cases hl : s = "length"
            · subst hl
              rw [show setPath (.arr xs) (.str "length" :: k2 :: rest) v =
                (match setPath (.num xs.length) (k2 :: rest) v with
                 | .ok _ => .ok (.arr xs)
                 | .error e => .error e) from by simp [setPath, hc]] at h
              cases hsp : setPath (.num xs.length) (k2 :: rest) v with
              | ok w =>
                rw [hsp] at h
                simp only [Except.ok.injEq] at h
                rw [← h]
                exact hxs
              | error e =>
                rw [hsp] at h
                cases h
            · rw [show setPath (.arr xs) (.str s :: k2 :: rest) v = .ok (.arr xs) from by
                simp [setPath, hc, hl]] at h
              simp only [Except.ok.injEq] at h
              rw [← h]
              exact hxs

/-! ### Bridge lemmas for `updateJsonAtPath`. -/

theorem updateJsonAtPath_parse_fail (json : String) (path : Option (List PathSeg))
    (v : String) (h : parseJson json = none) : updateJsonAtPath json path v = json := by
  simp [updateJsonAtPath, h]

theorem updateJsonAtPath_walk_ok (json : String) (d : JValue) (k : PathSeg)
    (ks : List PathSeg) (v : String) (d' : JValue) (h : parseJson json = some d)
    (hs : setPath d (k :: ks) (parseValueOrRaw v) = .ok d') :
    updateJsonAtPath json (some (k :: ks)) v = jsonStringify d' := by
  simp [updateJsonAtPath, h, hs]

theorem updateJsonAtPath_walk_err (json : String) (d : JValue) (k : PathSeg)
    (ks : List PathSeg) (v : String) (e : Unit) (h : parseJson json = some d)
    (hs : setPath d (k :: ks) (parseValueOrRaw v) = .error e) :
    updateJsonAtPath json (some (k :: ks)) v = json := by
  simp [updateJsonAtPath, h, hs]

/-! ### The claims. -/

/-- **C2.** `updateJsonAtPath` is total: it is a Lean function, so it cannot
raise; every modelled exception — a parse failure on `documentText` itself, or
a `TypeError`/`RangeError` thrown during the walk or the final assignment
(`setPath` returning `Except.error`) — is caught, and the function returns the
original `documentText` string verbatim, signalling failure only through that
identity. -/
theorem c2_updateJsonAtPath_total (json : String) (path : Option (List PathSeg))
    (newValue : String) :
    (parseJson json = none → updateJsonAtPath json path newValue = json) ∧
    (∀ d k ks e, parseJson json = some d → path = some (k :: ks) →
      setPath d (k :: ks) (parseValueOrRaw newValue) = .error e →
      updateJsonAtPath json path newValue = json) := by
  constructor
  · intro h
    exact updateJsonAtPath_parse_fail json path newValue h
  · intro d k ks e h hp hs
    rw [hp]
    exact updateJsonAtPath_walk_err json d k ks newValue e h hs

/-- **C2 witness.** `updateJsonAtPath('not json', [], "1")` returns
`'not json'` unchanged: the parse failure on the document is caught. -/
theorem c2_witness : updateJsonAtPath "not json" (some []) "1" = "not json" :=
  (c2_updateJsonAtPath_total "not json" (some []) "1").1 rfl

/-- **C4.** When the text returned by `updateJsonAtPath` does not re-validate
as parseable JSON, `handleSave` aborts atomically: the user-visible alert
fires, the component stays in the Editing state with the buffer intact, and
the document store, file-content store and selection store are all left
untouched (no timeout is scheduled either). -/
theorem c4_invalid_result_aborts_save (nd : NodeData) (st : ModalState)
    (stores : AppStores)
    (h : parseJson (updateJsonAtPath stores.json nd.path st.editValue) = none) :
    handleSave (some nd) st stores = ⟨st, stores, true, none⟩ := by
  simp [handleSave, h]

/-- **C4 witness.** With the unparseable document `not json` the update falls
back to the original text, validation fails, and the save aborts with the
alert while the state and stores are untouched. -/
theorem c4_witness :
    handleSave (some ⟨"n1", none, none⟩) ⟨true, "x"⟩ ⟨"not json", "c0", false, [], none⟩ =
      ⟨⟨true, "x"⟩, ⟨"not json", "c0", false, [], none⟩, true, none⟩ :=
  c4_invalid_result_aborts_save ⟨"n1", none, none⟩ ⟨true, "x"⟩
    ⟨"not json", "c0", false, [], none⟩ rfl

/-- **C7.** For a parseable document and an empty or absent path,
`updateJsonAtPath` replaces the whole document: it returns the 2-space
re-serialization of `newValue` parsed as JSON, and when that parse fails it
returns `newValue` JSON-encoded as a string literal. -/
theorem c7_empty_path_replaces_document (json : String) (d : JValue)
    (p : Option (List PathSeg)) (v : String)
    (hp : p = none ∨ p = some []) (h : parseJson json = some d) :
    updateJsonAtPath json p v =
      (match parseJson v with
       | some w => jsonStringify w
       | none => jsonStringify (.str v)) := by
  rcases hp with rfl | rfl
  · simp [updateJsonAtPath, h, jsonStringifyNewValue]
  · simp [updateJsonAtPath, h, jsonStringifyNewValue]

/-- **C7 witness.** Replacing the whole of `{"a":1}` with the parseable text
`[1, 2]` pretty-prints it; replacing it with the unparseable text `oops`
JSON-encodes the raw string. -/
theorem c7_witness :
    updateJsonAtPath "\x7b\"a\":1\x7d" (some []) "[1, 2]" = "[\n  1,\n  2\n]" ∧
    updateJsonAtPath "\x7b\"a\":1\x7d" none "oops" = "\"oops\"" := by
  constructor
  · exact (c7_empty_path_replaces_document "\x7b\"a\":1\x7d" (.obj [("a", .num 1)])
      (some []) "[1, 2]" (Or.inr rfl) rfl).trans rfl
  · exact (c7_empty_path_replaces_document "\x7b\"a\":1\x7d" (.obj [("a", .num 1)])
      none "oops" (Or.inl rfl) rfl).trans rfl

/-- **C8.** On a successful save — the updated text re-validates as parseable
JSON — `handleSave` commits the new text to the document store, writes the
same text to the file-content store with the unsaved-changes flag set, leaves
edit mode, fires no alert, and schedules the delayed reselection. -/
theorem c8_successful_save_commits (nd : NodeData) (st : ModalState)
    (stores : AppStores) (w : JValue)
    (h : parseJson (updateJsonAtPath stores.json nd.path st.editValue) = some w) :
    handleSave (some nd) st stores =
      ⟨⟨false, st.editValue⟩,
       { stores with
          json := updateJsonAtPath stores.json nd.path st.editValue,
          contents := updateJsonAtPath stores.json nd.path st.editValue,
          hasChanges := true },
       false, some ⟨200, nd.id⟩⟩ := by
  simp [handleSave, h]

/-- **C8 witness.** Saving the buffer `2` over document `1` (empty path)
commits `2` to both stores, sets the unsaved-changes flag, and leaves edit
mode. -/
theorem c8_witness :
    handleSave (some ⟨"n1", none, none⟩) ⟨true, "2"⟩ ⟨"1", "1", false, [], none⟩ =
      ⟨⟨false, "2"⟩, ⟨"2", "2", true, [], none⟩, false, some ⟨200, "n1"⟩⟩ :=
  c8_successful_save_commits ⟨"n1", none, none⟩ ⟨true, "2"⟩ ⟨"1", "1", false, [], none⟩
    (.num 2) rfl

/-- **C10.** While the edit-mode flag is set, any change of the selected node
re-runs the effect and overwrites the edit buffer with `normalizeNodeData` of
the new node's rows — regardless of what the user had typed, so in-progress
edits are silently discarded. -/
theorem c10_effect_overwrites_buffer (nd : NodeData) (st : ModalState)
    (h : st.isEditing = true) :
    editEffect (some nd) st =
      { st with editValue := normalizeNodeData (some (nd.text.getD [])) } := by
  simp [editEffect, h]

/-- **C10 witness.** With a user's in-progress text in the buffer, a selection
change to a node with rows `{"a": 1}` silently replaces the buffer. -/
theorem c10_witness :
    editEffect (some ⟨"n2", some [⟨some "a", .num 1, "number"⟩], none⟩)
        ⟨true, "my unsaved edits"⟩ =
      ⟨true, "\x7b\n  \"a\": 1\n\x7d"⟩ :=
  (c10_effect_overwrites_buffer ⟨"n2", some [⟨some "a", .num 1, "number"⟩], none⟩
    ⟨true, "my unsaved edits"⟩ rfl).trans rfl

/-- **C9.** Every successful save commit schedules exactly one callback with
the fixed 200 ms delay, capturing the original node's identifier; when the
callback runs it re-reads the node list and re-selects a node if and only if
one with that identifier still exists — when none does, the selection store is
left untouched and no error is surfaced. -/
theorem c9_delayed_reselect (nd : NodeData) (st : ModalState) (stores : AppStores)
    (w : JValue)
    (h : parseJson (updateJsonAtPath stores.json nd.path st.editValue) = some w) :
    (handleSave (some nd) st stores).scheduled = some ⟨200, nd.id⟩ ∧
    (∀ stores2 : AppStores,
      ((∃ n ∈ stores2.nodes, n.id = nd.id) →
        ∃ n ∈ stores2.nodes, n.id = nd.id ∧
          runReselect nd.id stores2 = { stores2 with selectedNode := some n }) ∧
      ((¬ ∃ n ∈ stores2.nodes, n.id = nd.id) → runReselect nd.id stores2 = stores2)) := by
  constructor
  · simp [handleSave, h]
  · intro stores2
    constructor
    · intro hex
      cases hfind : stores2.nodes.find? (fun node => node.id == nd.id) with
      | some n =>
        refine ⟨n, List.mem_of_find?_eq_some hfind, ?_, ?_⟩
        · have := List.find?_some hfind
          simpa using this
        · simp [runReselect, hfind]
      | none =>
        obtain ⟨n, hn, hid⟩ := hex
        have := List.find?_eq_none.mp hfind n hn
        simp [hid] at this
    · intro hnone
      cases hfind : stores2.nodes.find? (fun node => node.id == nd.id) with
      | some n =>
        exfalso
        have hp := List.find?_some hfind
        exact hnone ⟨n, List.mem_of_find?_eq_some hfind, by simpa using hp⟩
      | none => simp [runReselect, hfind]

/-- **C9 witness.** A concrete successful save schedules the 200 ms callback
for node `n1`; run against a store still containing `n1` the callback
re-selects it, and run against a store without it the callback changes
nothing. -/
theorem c9_witness :
    (handleSave (some ⟨"n1", none, none⟩) ⟨true, "2"⟩
      ⟨"1", "1", false, [], none⟩).scheduled = some ⟨200, "n1"⟩ ∧
    runReselect "n1" ⟨"2", "2", true, [⟨"n1", none, none⟩], none⟩ =
      ⟨"2", "2", true, [⟨"n1", none, none⟩], some ⟨"n1", none, none⟩⟩ ∧
    runReselect "n1" ⟨"2", "2", true, [⟨"n9", none, none⟩], none⟩ =
      ⟨"2", "2", true, [⟨"n9", none, none⟩], none⟩ := by
  have hmain := c9_delayed_reselect ⟨"n1", none, none⟩ ⟨true, "2"⟩
    ⟨"1", "1", false, [], none⟩ (.num 2) rfl
  refine ⟨hmain.1, ?_, ?_⟩
  · obtain ⟨n, hn, hid, hrun⟩ :=
      (hmain.2 ⟨"2", "2", true, [⟨"n1", none, none⟩], none⟩).1
        ⟨⟨"n1", none, none⟩, by simp, rfl⟩
    have hn2 : n = ⟨"n1", none, none⟩ := by
      rcases List.mem_singleton.mp hn with rfl
      rfl
    rw [hn2] at hrun
    exact hrun
  · refine (hmain.2 ⟨"2", "2", true, [⟨"n9", none, none⟩], none⟩).2 ?_
    rintro ⟨n, hn, hid⟩
    rcases List.mem_singleton.mp hn with rfl
    simp at hid

theorem string_ext (a b : String) (h : a.data = b.data) : a = b := by
  have h2 : String.mk a.data = String.mk b.data := by rw [h]
  rwa [stringMk_data, stringMk_data] at h2

theorem joinSep_brackets : ∀ (rest : List PathSeg) (s : PathSeg),
    "[" ++ joinSep "][" ((s :: rest).map segRender) ++ "]" = bracketTerms (s :: rest) := by
  intro rest
  induction rest with
  | nil =>
    intro s
    apply string_ext
    simp [joinSep, bracketTerms]
  | cons r rs ih =>
    intro s
    apply string_ext
    have hdata := congrArg String.data (ih r)
    simp only [String.data_append] at hdata ⊢
    simp only [List.map_cons, joinSep, bracketTerms, String.data_append] at hdata ⊢
    simp at hdata ⊢
    rw [hdata]

/-- **C6.** `jsonPathToString` returns `$` for an absent or empty path, and
otherwise `$` followed by one bracketed term per segment in order, numeric
segments unquoted and string segments double-quoted. -/
theorem c6_jsonPathToString_spec :
    jsonPathToString none = "$" ∧ jsonPathToString (some []) = "$" ∧
    (∀ segs : List PathSeg, segs ≠ [] →
      jsonPathToString (some segs) = "$" ++ bracketTerms segs) ∧
    (∀ n, segRender (.num n) = natRepr n) ∧ (∀ s, segRender (.str s) = "\"" ++ s ++ "\"") := by
  refine ⟨rfl, rfl, ?_, fun n => rfl, fun s => rfl⟩
  intro segs hne
  cases segs with
  | nil => exact absurd rfl hne
  | cons s rest =>
    rw [show jsonPathToString (some (s :: rest)) =
      "$[" ++ joinSep "][" ((s :: rest).map segRender) ++ "]" from by simp [jsonPathToString]]
    rw [← joinSep_brackets rest s]
    apply string_ext
    simp

/-- **C6 witness.** `jsonPathToString(["a",0,"b"])` is `$["a"][0]["b"]`, and
the undefined path renders as `$`. -/
theorem c6_witness :
    jsonPathToString none = "$" ∧
    jsonPathToString (some [.str "a", .num 0, .str "b"]) = "$[\"a\"][0][\"b\"]" := by
  refine ⟨c6_jsonPathToString_spec.1, ?_⟩
  have h := c6_jsonPathToString_spec.2.2.1 [.str "a", .num 0, .str "b"] (by simp)
  rw [h]
  rfl

theorem foldl_rows_filter : ∀ (rows : List NodeRow) (acc : List (String × JValue)),
    rows.foldl (fun acc row =>
      if row.type ≠ "array" ∧ row.type ≠ "object" then
        if keyTruthy row.key then insertField acc (row.key.getD "") row.value else acc
      else acc) acc =
    (rows.filter (fun r =>
        decide (r.type ≠ "array") && decide (r.type ≠ "object") && keyTruthy r.key)).foldl
      (fun acc r => insertField acc (r.key.getD "") r.value) acc := by
  intro rows
  induction rows with
  | nil => intro acc; rfl
  | cons r rest ih =>
    intro acc
    by_cases h1 : r.type ≠ "array" ∧ r.type ≠ "object"
    · by_cases h2 : keyTruthy r.key = true
      · have hp : (decide (r.type ≠ "array") && decide (r.type ≠ "object") &&
            keyTruthy r.key) = true := by
          simp [h1.1, h1.2, h2]
        rw [List.foldl_cons, if_pos h1, if_pos h2, List.filter_cons, if_pos hp,
          List.foldl_cons]
        exact ih _
      · have hp : ¬((decide (r.type ≠ "array") && decide (r.type ≠ "object") &&
            keyTruthy r.key) = true) := by
          simp only [Bool.and_eq_true, decide_eq_true_eq]
          rintro ⟨-, hc⟩
          exact h2 hc
        rw [List.foldl_cons, if_pos h1, if_neg h2, List.filter_cons, if_neg hp]
        exact ih _
    · have hp : ¬((decide (r.type ≠ "array") && decide (r.type ≠ "object") &&
          keyTruthy r.key) = true) := by
        simp only [Bool.and_eq_true, decide_eq_true_eq]
        rintro ⟨⟨ha, hb⟩, -⟩
        exact h1 ⟨ha, hb⟩
      rw [List.foldl_cons, if_neg h1, List.filter_cons, if_neg hp]
      exact ih _

/-- **C5.** `normalizeNodeData` returns `{}` for an empty or absent row list;
for exactly one row without a (truthy) key it returns the row's value under
JavaScript string coercion, not JSON-encoded; otherwise it returns the
2-space JSON serialization of the key/value mapping built from exactly those
rows that have a key and whose type is neither `array` nor `object`. -/
theorem c5_normalizeNodeData_spec :
    normalizeNodeData none = "\x7b\x7d" ∧
    normalizeNodeData (some []) = "\x7b\x7d" ∧
    (∀ r : NodeRow, keyTruthy r.key = false →
      normalizeNodeData (some [r]) = jsToString r.value) ∧
    (∀ r : NodeRow, keyTruthy r.key = true →
      normalizeNodeData (some [r]) = jsonStringify (.obj (rowsToFields [r]))) ∧
    (∀ (r1 r2 : NodeRow) (rows : List NodeRow),
      normalizeNodeData (some (r1 :: r2 :: rows)) =
        jsonStringify (.obj (rowsToFields (r1 :: r2 :: rows)))) ∧
    (∀ rows : List NodeRow, rowsToFields rows =
      (rows.filter (fun r =>
          decide (r.type ≠ "array") && decide (r.type ≠ "object") && keyTruthy r.key)).foldl
        (fun acc r => insertField acc (r.key.getD "") r.value) []) := by
  refine ⟨rfl, rfl, ?_, ?_, ?_, ?_⟩
  · intro r h
    simp [normalizeNodeData, h]
  · intro r h
    simp [normalizeNodeData, h]
  · intro r1 r2 rows
    simp [normalizeNodeData]
  · intro rows
    exact foldl_rows_filter rows []

/-- **C5 witness.** `normalizeNodeData([])` is `{}`; a single keyless row is
coerced bare; an `array`-typed row is excluded from the serialization. -/
theorem c5_witness :
    normalizeNodeData (some []) = "\x7b\x7d" ∧
    normalizeNodeData (some [⟨none, .str "x", "string"⟩]) = "x" ∧
    normalizeNodeData (some [⟨some "a", .num 1, "number"⟩, ⟨some "b", .arr [], "array"⟩]) =
      "\x7b\n  \"a\": 1\n\x7d" := by
  refine ⟨c5_normalizeNodeData_spec.2.1, ?_, ?_⟩
  · exact (c5_normalizeNodeData_spec.2.2.1 ⟨none, .str "x", "string"⟩ rfl).trans rfl
  · exact (c5_normalizeNodeData_spec.2.2.2.2.1 ⟨some "a", .num 1, "number"⟩
      ⟨some "b", .arr [], "array"⟩ []).trans rfl

/-- **C3 counterexample.** The claim quantifies over *every* parseable
document and non-empty path, but walking into the number at `"a"` in
`{"a":1}` with path `["a","b"]` throws a strict-mode `TypeError` at the final
assignment; the exception is caught and the *original, non-re-serialized*
text is returned: nothing is assigned at the final segment and the output is
not the claimed 2-space re-serialization. -/
theorem c3_counterexample :
    updateJsonAtPath "\x7b\"a\":1\x7d" (some [.str "a", .str "b"]) "2" = "\x7b\"a\":1\x7d" ∧
    (parseJson "\x7b\"a\":1\x7d").isSome = true ∧
    ((parseJson (updateJsonAtPath "\x7b\"a\":1\x7d" (some [.str "a", .str "b"]) "2")).bind
      (fun d => getAtPath d [.str "a", .str "b"])) = none ∧
    updateJsonAtPath "\x7b\"a\":1\x7d" (some [.str "a", .str "b"]) "2" ≠
      jsonStringify (.obj [("a", .num 1)]) := by
  exact ⟨rfl, rfl, rfl, by decide⟩

/-- **C3 (amended).** For every parseable document and non-empty path, *when
the walk and final assignment raise no exception* (`setPath` succeeds),
`updateJsonAtPath` performs the walk — creating an empty array at a missing
intermediate step when the next segment is numeric and an empty object
otherwise, as `setPath`/`freshContainer` embed — assigns the JSON-parse of
`newValue` (or the raw string when that parse fails) at the final segment,
and returns the whole document re-serialized with 2-space indentation; when
an exception is raised the original text is returned instead. -/
theorem c3_nonempty_path_update (json : String) (d : JValue) (k : PathSeg)
    (ks : List PathSeg) (v : String) (h : parseJson json = some d) :
    (∀ d', setPath d (k :: ks) (parseValueOrRaw v) = .ok d' →
      updateJsonAtPath json (some (k :: ks)) v = jsonStringify d') ∧
    (∀ e, setPath d (k :: ks) (parseValueOrRaw v) = .error e →
      updateJsonAtPath json (some (k :: ks)) v = json) ∧
    parseValueOrRaw v =
      (match parseJson v with
       | some w => w
       | none => .str v) ∧
    (∀ next, freshContainer next = if segIsNum next then .arr [] else .obj []) := by
  refine ⟨fun d' hs => updateJsonAtPath_walk_ok json d k ks v d' h hs,
    fun e hs => updateJsonAtPath_walk_err json d k ks v e h hs,
    rfl, fun next => rfl⟩

/-- **C3 witness.** The claim's own example: `updateJsonAtPath('{"a":1}',
["b",0], "5")` creates `b` as an array (the next segment `0` is numeric) and
sets index 0 to the number 5, re-serializing with 2-space indentation. -/
theorem c3_witness :
    updateJsonAtPath "\x7b\"a\":1\x7d" (some [.str "b", .num 0]) "5" =
      "\x7b\n  \"a\": 1,\n  \"b\": [\n    5\n  ]\n\x7d" :=
  ((c3_nonempty_path_update "\x7b\"a\":1\x7d" (.obj [("a", .num 1)]) (.str "b")
    [.num 0] "5" rfl).1 (.obj [("a", .num 1), ("b", .arr [.num 5])]) rfl).trans rfl

/-- **C1 counterexample.** In the exact scenario of the claim — Editing mode,
buffer cleared to the empty string, Save on a node with non-empty path
`["a"]` in the validly-parsed document `{"a":1}` — the save *succeeds*: no
alert is shown and the component leaves the Editing state, contradicting the
claimed alert-and-stay-editing outcome. -/
theorem c1_counterexample :
    (parseJson "\x7b\"a\":1\x7d").isSome = true ∧
    (handleSave (some ⟨"node1", none, some [.str "a"]⟩) ⟨true, ""⟩
      ⟨"\x7b\"a\":1\x7d", "\x7b\"a\":1\x7d", false, [], none⟩).alertShown = false ∧
    (handleSave (some ⟨"node1", none, some [.str "a"]⟩) ⟨true, ""⟩
      ⟨"\x7b\"a\":1\x7d", "\x7b\"a\":1\x7d", false, [], none⟩).state.isEditing = false ∧
    (handleSave (some ⟨"node1", none, some [.str "a"]⟩) ⟨true, ""⟩
      ⟨"\x7b\"a\":1\x7d", "\x7b\"a\":1\x7d", false, [], none⟩).stores.json =
        "\x7b\n  \"a\": \"\"\n\x7d" :=
  ⟨rfl, rfl, rfl, rfl⟩

/-- **C1 (amended).** If the user enters Editing, clears the buffer to the
empty string and triggers Save on a node with a non-empty path in a
validly-parsed (well-formed) document, and the path walk raises no exception,
then `JSON.parse("")` fails and the raw-string fallback assigns the empty
string at the path; the re-serialized document re-validates as parseable
JSON, so the save *succeeds*: no alert is shown, the new text is committed to
the document and file-content stores, and the component leaves Editing. -/
theorem c1_empty_buffer_save_succeeds (nd : NodeData) (st : ModalState)
    (stores : AppStores) (d d' : JValue) (k : PathSeg) (ks : List PathSeg)
    (hdoc : parseJson stores.json = some d) (hwf : wfJ d = true)
    (hpath : nd.path = some (k :: ks))
    (hedit : st.isEditing = true) (hbuf : st.editValue = "")
    (hset : setPath d (k :: ks) (.str "") = .ok d') :
    updateJsonAtPath stores.json nd.path st.editValue = jsonStringify d' ∧
    parseJson (jsonStringify d') = some d' ∧
    handleSave (some nd) st stores =
      ⟨⟨false, st.editValue⟩,
       { stores with
          json := jsonStringify d',
          contents := jsonStringify d',
          hasChanges := true },
       false, some ⟨200, nd.id⟩⟩ := by
  have hraw : parseValueOrRaw "" = JValue.str "" := rfl
  have hupd : updateJsonAtPath stores.json nd.path st.editValue = jsonStringify d' := by
    rw [hpath, hbuf]
    exact updateJsonAtPath_walk_ok stores.json d k ks "" d' hdoc (by rw [hraw]; exact hset)
  have hwf2 : wfJ d' = true := setPath_wf (k :: ks) d (.str "") d' hwf rfl hset
  have hrepar : parseJson (jsonStringify d') = some d' := parseJson_stringify d' hwf2
  refine ⟨hupd, hrepar, ?_⟩
  simp [handleSave, hupd, hrepar]

/-- **C1 witness.** The concrete scenario: document `{"a":1}`, node path
`["a"]`, buffer cleared; the save succeeds with the document becoming
`{"a": ""}`, no alert, edit mode left. -/
theorem c1_witness :
    handleSave (some ⟨"node1", none, some [.str "a"]⟩) ⟨true, ""⟩
      ⟨"\x7b\"a\":1\x7d", "\x7b\"a\":1\x7d", false, [], none⟩ =
      ⟨⟨false, ""⟩,
       ⟨"\x7b\n  \"a\": \"\"\n\x7d", "\x7b\n  \"a\": \"\"\n\x7d", true, [], none⟩,
       false, some ⟨200, "node1"⟩⟩ :=
  (c1_empty_buffer_save_succeeds ⟨"node1", none, some [.str "a"]⟩ ⟨true, ""⟩
    ⟨"\x7b\"a\":1\x7d", "\x7b\"a\":1\x7d", false, [], none⟩
    (.obj [("a", .num 1)]) (.obj [("a", .str "")]) (.str "a") []
    rfl rfl rfl rfl rfl rfl).2.2.trans rfl
